import Mathlib

/-!
# A verification development for the brainfuck interpreter `bf`

The Go package `bf` (file `bf.go`) is embedded as pure Lean functions.

* A Go `byte` is a `Fin 256`; a Go `string` is the list of its bytes.
* A Go `error` value is `Option Error` (`none` is `nil`).
* `io.Reader` / `io.Writer` values are modelled by the results their successive
  `Read` / `Write` calls give for a one-byte buffer, plus a call counter.
* `instructionPointer`, `dataPointer`, `depth`, `count` and the tape cells are Go
  `int`s (64 bit).  None of them can overflow: a Go string is shorter than `2^63`
  bytes, the instruction pointer, `depth` and `count` are bounded by the length of
  the program, every loop boundary reads the current cell (so the data pointer is
  in `[0, 30000)` there, and a straight-line stretch moves it by less than the
  program length), and cells stay within `-1 .. 256`.  They are therefore
  unbounded `Int` / `Nat` here.  This holds of every run that starts from
  `NewInterpreter`; a theorem about an arbitrary state whose conclusion names the
  moved data pointer assumes that the move stays within `minInt .. maxInt`.
* A Go runtime panic (index out of range) is an explicit result.
* Loops that need not terminate take a fuel argument that bounds the number of
  iterations and give an explicit `timeout` result when it is used up.
-/

namespace bf

/-- A Go byte. -/
abbrev Byte := Fin 256

/-- Plus instruction constant, the character + -/
def Plus : Byte := 43
/-- Minus instruction constant, the character - -/
def Minus : Byte := 45
/-- Right instruction constant, the character > -/
def Right : Byte := 62
/-- Left instruction constant, the character < -/
def Left : Byte := 60
/-- PutChar instruction constant, the character . -/
def PutChar : Byte := 46
/-- ReadChar instruction constant, the character , -/
def ReadChar : Byte := 44
/-- JumpIfZero instruction constant, the opening bracket -/
def JumpIfZero : Byte := 91
/-- JumpIfNotZero instruction constant, the closing bracket -/
def JumpIfNotZero : Byte := 93

/-- Go error values: the sentinel `io.EOF` and values made by `errors.New`
(or by a reader or writer), told apart by their text. -/
inductive Error where
  | EOF
  | New (msg : String)
deriving DecidableEq, Repr

/-- Result of one `Read(p)` call with `len(p) = 1`: `data = some b` when `n = 1` and
the byte `b` was stored in `p[0]`, `data = none` when `n = 0`; `err` is the error. -/
structure ReadResult where
  data : Option Byte
  err : Option Error
deriving DecidableEq, Repr

/-- An `io.Reader`: the result of its `k`-th `Read` call, and the number of calls
made so far. -/
structure Reader where
  results : Nat → ReadResult
  calls : Nat

/-- One `Read` call on a reader. -/
def Reader.Read (r : Reader) : ReadResult × Reader :=
  (r.results r.calls, { r with calls := r.calls + 1 })

/-- Result of one `Write(p)` call with `len(p) = 1`: `accepted` when `n = 1` (the
byte was written), and the error. -/
structure WriteResult where
  accepted : Bool
  err : Option Error
deriving DecidableEq, Repr

/-- An `io.Writer`: the result of its `k`-th `Write` call, the number of calls made
so far and the bytes written so far. -/
structure Writer where
  results : Nat → WriteResult
  calls : Nat
  written : List Byte

/-- One `Write` call of a one-byte buffer holding `b`. -/
def Writer.Write (w : Writer) (b : Byte) : WriteResult × Writer :=
  let r := w.results w.calls
  (r, { w with calls := w.calls + 1,
               written := if r.accepted then w.written ++ [b] else w.written })

/-- The reader `strings.NewReader(s)`: one byte per call, then `io.EOF` for ever. -/
def stringsReader (s : List Byte) : Reader :=
  { results := fun k =>
      match s[k]? with
      | some b => { data := some b, err := none }
      | none => { data := none, err := some Error.EOF }
    calls := 0 }

/-- The writer `new(bytes.Buffer)`: every byte is accepted. -/
def bytesBuffer : Writer :=
  { results := fun _ => { accepted := true, err := none }, calls := 0, written := [] }

/-- The bytes of a Go string literal (its UTF-8 encoding). -/
def goString (s : String) : List Byte :=
  s.toUTF8.data.toList.map fun u => u.val

/-- Number of cells of the tape, the length of the array type `[30000]int`. -/
def tapeLen : Int := 30000

/-- Interpreter brainfuck interpreter type.  The scratch buffer `buf` is left out:
it is written before each use and never read otherwise. -/
structure Interpreter where
  code : Reader
  instructions : List Byte
  instructionPointer : Nat
  tape : Nat → Int
  dataPointer : Int
  input : Reader
  output : Writer

/-- NewInterpreter creates an interpreter instance (all other fields zero). -/
def NewInterpreter (code : Reader) (input : Reader) (out : Writer) : Interpreter :=
  { code := code, instructions := [], instructionPointer := 0, tape := fun _ => 0,
    dataPointer := 0, input := input, output := out }

/-- The read loop of `readAllInstructions`: stop at `io.EOF`, otherwise append
`p[:n]` (also when `err` is another error) and read again.  `none`: the loop is still
running after `fuel` reads. -/
def readLoop : Nat → Reader → List Byte → Option (List Byte × Reader)
  | 0, _, _ => none
  | fuel + 1, code, acc =>
    let (res, code1) := code.Read
    if res.err = some Error.EOF then some (acc, code1)
    else
      match res.data with
      | some b => readLoop fuel code1 (acc ++ [b])
      | none => readLoop fuel code1 acc

/-- The method readAllInstructions reads all instruction from input stream; it is
skipped when instructions already exist. -/
def readAllInstructions (fuel : Nat) (i : Interpreter) : Option Interpreter :=
  if i.instructions ≠ [] then some i
  else
    match readLoop fuel i.code [] with
    | none => none
    | some (ins, code1) => some { i with code := code1, instructions := ins }

/-- The scan of `IsValid` over the instructions, with the running `count`; `count` is a
Go `int` and its sign is tested after the decrement.  `strings.Split(s, "")` cuts the
string into UTF-8 sequences, and such a sequence equals `"["` or `"]"` exactly when it
is that single ASCII byte (which is never part of a longer sequence), so the loop over
the pieces is a loop over the bytes.  `Sum.inl e`: the loop returned `e`; `Sum.inr count`:
the loop ended with this `count`. -/
def validateLoop : List Byte → Int → Option Error ⊕ Int
  | [], count => Sum.inr count
  | op :: rest, count =>
    if op = JumpIfZero then validateLoop rest (count + 1)
    else if op = JumpIfNotZero then
      if count - 1 < 0 then Sum.inl (some (Error.New "Invalid code: ] is before ["))
      else validateLoop rest (count - 1)
    else validateLoop rest count

/-- The body of `IsValid` after loading: the loop, then the final test `count < 0`. -/
def validate (instructions : List Byte) : Option Error :=
  match validateLoop instructions 0 with
  | Sum.inl e => e
  | Sum.inr count =>
    if count < 0 then some (Error.New "Invalid code: Mismatched []") else none

/-- IsValid validates brainfuck code: the returned error and the interpreter after
the call; `none` when loading is still running after `fuel` reads. -/
def IsValid (fuel : Nat) (i : Interpreter) : Option (Option Error × Interpreter) :=
  match readAllInstructions fuel i with
  | none => none
  | some i1 => some (validate i1.instructions, i1)

/-- Read of `i.tape[i.dataPointer]`; `none` is the index-out-of-range panic. -/
def Interpreter.cell (i : Interpreter) : Option Int :=
  if 0 ≤ i.dataPointer ∧ i.dataPointer < tapeLen then some (i.tape i.dataPointer.toNat)
  else none

/-- Assignment `i.tape[i.dataPointer] = v` (only used after a successful index check). -/
def Interpreter.setCell (i : Interpreter) (v : Int) : Interpreter :=
  { i with tape := fun k => if k = i.dataPointer.toNat then v else i.tape k }

/-- The forward scan of case JumpIfZero: `for depth != 0 { ip++; switch instructions[ip] }`.
Gives the final instruction pointer, or `none` for the index-out-of-range panic.  The
first argument bounds the iterations; with `instructions.length - ip` it is never the
reason for `none` (see `scanForward_fuel`). -/
def scanForward (instructions : List Byte) : Nat → Nat → Nat → Option Nat
  | _, ip, 0 => some ip
  | 0, _, _ + 1 => none
  | fuel + 1, ip, depth + 1 =>
    match instructions[ip + 1]? with
    | none => none
    | some c =>
      if c = JumpIfZero then scanForward instructions fuel (ip + 1) (depth + 1 + 1)
      else if c = JumpIfNotZero then scanForward instructions fuel (ip + 1) depth
      else scanForward instructions fuel (ip + 1) (depth + 1)

/-- The backward scan of case JumpIfNotZero: `for depth != 0 { ip--; switch instructions[ip] }`.
Gives the final instruction pointer, or `none` for the index-out-of-range panic
(`ip--` below 0). -/
def scanBackward (instructions : List Byte) : Nat → Nat → Option Nat
  | ip, 0 => some ip
  | 0, _ + 1 => none
  | ip + 1, depth + 1 =>
    match instructions[ip]? with
    | none => none
    | some c =>
      if c = JumpIfNotZero then scanBackward instructions ip (depth + 1 + 1)
      else if c = JumpIfZero then scanBackward instructions ip depth
      else scanBackward instructions ip (depth + 1)

/-- What one iteration of the loop of `Execute` does. -/
inductive Step where
  | next (i : Interpreter)
  | ret (err : Error) (i : Interpreter)
  | panic

/-- The method readChar reads one byte from the input. -/
def readChar (i : Interpreter) : Step :=
  let (res, input1) := i.input.Read
  let i1 := { i with input := input1 }
  match res.err with
  | some e => Step.ret e i1
  | none =>
    match res.data with
    | none => Step.ret (Error.New "wrong bytes read") i1
    | some b =>
      match i1.cell with
      | none => Step.panic
      | some _ => Step.next (i1.setCell (b.val : Int))

/-- The method putChar writes the content of the current tape cell to the output
stream; `byte(v)` keeps the low eight bits. -/
def putChar (i : Interpreter) : Step :=
  match i.cell with
  | none => Step.panic
  | some v =>
    let (res, output1) := i.output.Write (Fin.ofNat (v % 256).toNat)
    let i1 := { i with output := output1 }
    match res.err with
    | some e => Step.ret e i1
    | none =>
      if res.accepted then Step.next i1
      else Step.ret (Error.New "wrong bytes written") i1

/-- The trailing `i.instructionPointer++` of the loop body. -/
def Interpreter.advance (i : Interpreter) : Interpreter :=
  { i with instructionPointer := i.instructionPointer + 1 }

/-- The `switch` of the loop body of `Execute`, without the trailing increment. -/
def dispatch (i : Interpreter) (ins : Byte) : Step :=
  if ins = Plus then
    match i.cell with
    | none => Step.panic
    | some v => Step.next (i.setCell (if v + 1 = 256 then 0 else v + 1))
  else if ins = Minus then
    match i.cell with
    | none => Step.panic
    | some v => Step.next (i.setCell (if v - 1 = -1 then 255 else v - 1))
  else if ins = Right then Step.next { i with dataPointer := i.dataPointer + 1 }
  else if ins = Left then Step.next { i with dataPointer := i.dataPointer - 1 }
  else if ins = ReadChar then readChar i
  else if ins = PutChar then putChar i
  else if ins = JumpIfZero then
    match i.cell with
    | none => Step.panic
    | some v =>
      if v = 0 then
        match scanForward i.instructions (i.instructions.length - i.instructionPointer)
            i.instructionPointer 1 with
        | none => Step.panic
        | some ip => Step.next { i with instructionPointer := ip }
      else Step.next i
  else if ins = JumpIfNotZero then
    match i.cell with
    | none => Step.panic
    | some v =>
      if v ≠ 0 then
        match scanBackward i.instructions i.instructionPointer 1 with
        | none => Step.panic
        | some ip => Step.next { i with instructionPointer := ip }
      else Step.next i
  else Step.next i

/-- One iteration of the loop of `Execute` (entered with
`instructionPointer < len(instructions)`): fetch, `switch`, trailing increment. -/
def iteration (i : Interpreter) : Step :=
  match i.instructions[i.instructionPointer]? with
  | none => Step.panic
  | some ins =>
    match dispatch i ins with
    | Step.next i1 => Step.next i1.advance
    | r => r

/-- How a call of `Execute` ends. -/
inductive Outcome where
  | returned (err : Option Error) (i : Interpreter)
  | panicked
  | timeout

/-- The loop `for i.instructionPointer < len(i.instructions)` of `Execute`; `timeout`
when it is still running after `fuel` iterations. -/
def executeLoop : Nat → Interpreter → Outcome
  | fuel, i =>
    if i.instructionPointer < i.instructions.length then
      match fuel with
      | 0 => Outcome.timeout
      | fuel + 1 =>
        match iteration i with
        | Step.next i1 => executeLoop fuel i1
        | Step.ret e i1 => Outcome.returned (some e) i1
        | Step.panic => Outcome.panicked
    else Outcome.returned none i

/-- Execute executes the brainfuck code; `fuel` bounds both the reads of the loader
and the iterations of the loop. -/
def Execute (fuel : Nat) (i : Interpreter) : Outcome :=
  match readAllInstructions fuel i with
  | none => Outcome.timeout
  | some i1 => executeLoop fuel i1

/-- Observable part of an outcome that can be compared by evaluation: the returned
error and the bytes written. -/
def Outcome.output : Outcome → Option (Option Error × List Byte)
  | Outcome.returned err i => some (err, i.output.written)
  | _ => none

/-! ## Notions used to state the properties -/

/-- The bytes of `p` at the indices `a ≤ x < b`. -/
def slice (p : List Byte) (a b : Nat) : List Byte := (p.drop a).take (b - a)

/-- Number of opening brackets minus number of closing brackets. -/
def net (l : List Byte) : Int := (l.count JumpIfZero : Int) - (l.count JumpIfNotZero : Int)

/-- As many opening as closing brackets. -/
def balanced (l : List Byte) : Prop := l.count JumpIfZero = l.count JumpIfNotZero

instance (l : List Byte) : Decidable (balanced l) := by unfold balanced; infer_instance

/-- The interpreter made by `NewInterpreter` from `strings.NewReader(p)`, after its
program has been loaded. -/
def loaded (p : List Byte) (input : Reader) (out : Writer) : Interpreter :=
  { NewInterpreter (stringsReader p) input out with
    code := { stringsReader p with calls := p.length + 1 }, instructions := p }

/-- The first error of `IsValid`. -/
def errBefore : Error := Error.New "Invalid code: ] is before ["

/-- The second error of `IsValid`. -/
def errMismatched : Error := Error.New "Invalid code: Mismatched []"

/-- A state used to exercise the jump theorems: the program `[[]]+` is loaded, the
instruction pointer is 0 and all cells are 0. -/
def jumpState : Interpreter :=
  loaded (goString "[[]]+") (stringsReader []) bytesBuffer

/-- A state used to exercise the backward jump: the program `[[]]+`, instruction pointer
at the last closing bracket, current cell 7. -/
def backState : Interpreter :=
  { jumpState with instructionPointer := 3, tape := fun _ => 7 }

/-- The state after at most `n` iterations of the loop of `Execute`: the loop stops
early when the instruction pointer reaches the end, when an I/O error makes `Execute`
return (the state at the return is kept) or at a panic (the state before it is kept). -/
def stateAfter : Nat → Interpreter → Interpreter
  | 0, i => i
  | n + 1, i =>
    if i.instructionPointer < i.instructions.length then
      match iteration i with
      | Step.next i1 => stateAfter n i1
      | Step.ret _ i1 => i1
      | Step.panic => i
    else i

/-- Every cell of the tape holds a value in `0..255`. -/
def tapeOK (i : Interpreter) : Prop := ∀ k, 0 ≤ i.tape k ∧ i.tape k ≤ 255

/-- What holds of the state a step ends in (nothing at a panic). -/
def Step.All (P : Interpreter → Prop) : Step → Prop
  | Step.next s => P s
  | Step.ret _ s => P s
  | Step.panic => True

/-- The program of the first `TestExecute` fixture. -/
def helloworldProgram : List Byte :=
  goString "+[----->+++<]>+.---.+++++++..+++.++++++++.--------.+++.------.--------."

/-- A state with the data pointer on the first cell and the instruction `<` next. -/
def firstCellState : Interpreter :=
  loaded (goString "<") (stringsReader []) bytesBuffer

/-- The largest Go `int` (64 bit), `math.MaxInt64`. -/
def maxInt : Int := 9223372036854775807

/-- The smallest Go `int` (64 bit), `math.MinInt64`. -/
def minInt : Int := -9223372036854775808

/-- A state with the data pointer on the last cell and the instruction `>` next. -/
def lastCellState : Interpreter :=
  { loaded (goString ">") (stringsReader []) bytesBuffer with dataPointer := 29999 }

/-- Whether a byte is one of the eight instructions `+ - > < . , [ ]`. -/
def isInstruction (c : Byte) : Bool :=
  decide (c = Plus) || decide (c = Minus) || decide (c = Right) || decide (c = Left) ||
  decide (c = PutChar) || decide (c = ReadChar) || decide (c = JumpIfZero) ||
  decide (c = JumpIfNotZero)

/-- The program with every byte outside the eight instructions removed. -/
def strip (p : List Byte) : List Byte := p.filter isInstruction

/-- Number of instruction bytes of `p` before index `n`: the index in `strip p` of the
instruction at index `n` of `p`. -/
def instrBefore (p : List Byte) (n : Nat) : Nat := (strip (p.take n)).length

/-- The two states agree on the tape, the data pointer, the input and the output. -/
def sameData (s t : Interpreter) : Prop :=
  s.tape = t.tape ∧ s.dataPointer = t.dataPointer ∧ s.input = t.input ∧ s.output = t.output

/-- The two outcomes are the same: both return, with the same error and states that
agree on tape, data pointer, input and output; or both panic; or both are still running. -/
inductive Outcome.same : Outcome → Outcome → Prop where
  | returned (e : Option Error) (s t : Interpreter) (h : sameData s t) :
      Outcome.same (Outcome.returned e s) (Outcome.returned e t)
  | panicked : Outcome.same Outcome.panicked Outcome.panicked
  | timeout : Outcome.same Outcome.timeout Outcome.timeout

/-- The state with the tape, data pointer, input and output of `s` and the program
(reader, instructions, instruction pointer) of `u`. -/
def retarget (u s : Interpreter) : Interpreter :=
  { s with code := u.code, instructions := u.instructions,
           instructionPointer := u.instructionPointer }

/-- Apply a function to the state a step ends in. -/
def Step.map (f : Interpreter → Interpreter) : Step → Step
  | Step.next s => Step.next (f s)
  | Step.ret e s => Step.ret e (f s)
  | Step.panic => Step.panic

/-- The state `s` runs the program `p`, the state `t` runs `strip p`, both are at the
same place of the program and agree on tape, data pointer, input and output. -/
def Sim (p : List Byte) (s t : Interpreter) : Prop :=
  s.instructions = p ∧ t.instructions = strip p ∧
  t.instructionPointer = instrBefore p s.instructionPointer ∧
  s.instructionPointer ≤ p.length ∧ sameData s t

/-- Two steps that correspond: both go on, to states related by `Sim`; or both return
the same error, in states with the same data; or both panic. -/
def StepSim (p : List Byte) : Step → Step → Prop
  | Step.next s1, Step.next t1 => Sim p s1 t1
  | Step.ret e s1, Step.ret e1 t1 => e = e1 ∧ sameData s1 t1
  | Step.panic, Step.panic => True
  | _, _ => False

/-- A small program with free text between the instructions. -/
def commentedProgram : List Byte :=
  goString "++ set to two [>+.<- print and count down] done"

/-- The program of the last `TestIsValid` fixture: its first bracket is a closing one. -/
def closeFirstProgram : List Byte := goString "+----->+++]<]>+++.+++++++++++."

/-- A state about to execute `,` with the data pointer on cell 2 and the input bytes
`65 66` still unread. -/
def readState : Interpreter :=
  { loaded (goString ",") (stringsReader [65, 66]) bytesBuffer with dataPointer := 2 }

/-- A state about to execute `,` with the data pointer on cell 2 and an empty input. -/
def readEndState : Interpreter :=
  { loaded (goString ",") (stringsReader []) bytesBuffer with dataPointer := 2 }

/-- Number of `.` instructions executed in the first `n` iterations of the loop of
`Execute` started in state `i` (an iteration counts when it fetches a `.`). -/
def putCharsExecuted : Nat → Interpreter → Nat
  | 0, _ => 0
  | n + 1, i =>
    if i.instructionPointer < i.instructions.length then
      (if i.instructions[i.instructionPointer]? = some PutChar then 1 else 0) +
        match iteration i with
        | Step.next i1 => putCharsExecuted n i1
        | _ => 0
    else 0

/-- A state about to execute `.` with the value 72 in the current cell 1. -/
def writeState : Interpreter :=
  { loaded (goString ".") (stringsReader []) bytesBuffer with
    dataPointer := 1, tape := fun k => if k = 1 then 72 else 0 }

/-- The program holds none of the instructions `[ ] . ,`. -/
def plainProgram (p : List Byte) : Prop :=
  ∀ c ∈ p, c ≠ JumpIfZero ∧ c ≠ JumpIfNotZero ∧ c ≠ PutChar ∧ c ≠ ReadChar

instance (p : List Byte) : Decidable (plainProgram p) := by unfold plainProgram; infer_instance

/-- The program holds none of the instructions `> <`. -/
def noMove (p : List Byte) : Prop := ∀ c ∈ p, c ≠ Right ∧ c ≠ Left

instance (p : List Byte) : Decidable (noMove p) := by unfold noMove; infer_instance

/-- The reader keeps to the `io.Reader` contract at the end of its stream: once a
`Read` has returned `io.EOF`, the next one returns `io.EOF` as well. -/
def stickyEOF (r : Reader) : Prop :=
  ∀ k, (r.results k).err = some Error.EOF → (r.results (k + 1)).err = some Error.EOF

/-- A state in mid-run whose program has not been loaded yet: cell 3 holds 9, the data
pointer is 3, the byte 7 has been written, the program text is `+.`. -/
def midState : Interpreter :=
  { NewInterpreter (stringsReader (goString "+.")) (stringsReader [1]) bytesBuffer with
    tape := fun k => if k = 3 then 9 else 0
    dataPointer := 3
    output := { bytesBuffer with calls := 1, written := [7] } }

/-- A state about to execute the program `[-]` with the value 200 in the current cell 5
and other values in the other cells. -/
def clearState : Interpreter :=
  { loaded (goString "[-]") (stringsReader []) bytesBuffer with
    dataPointer := 5, tape := fun k => if k = 5 then 200 else 3 }

/-- A program reader that delivers the byte `+` and then fails with an error other than
`io.EOF` on every later `Read` (for example a connection that has been reset). -/
def brokenReader : Reader :=
  { results := fun k =>
      if k = 0 then { data := some Plus, err := none }
      else { data := none, err := some (Error.New "read failed") }
    calls := 0 }

/-- A program reader that delivers `+`, fails once with an error other than `io.EOF`,
then delivers `-` and ends. -/
def flakyReader : Reader :=
  { results := fun k =>
      if k = 0 then { data := some Plus, err := none }
      else if k = 1 then { data := none, err := some (Error.New "read failed") }
      else if k = 2 then { data := some Minus, err := none }
      else { data := none, err := some Error.EOF }
    calls := 0 }

/-! ## Brackets and slices -/

theorem net_nil : net [] = 0 := by simp [net]

theorem net_cons (c : Byte) (l : List Byte) :
    net (c :: l) = (if c = JumpIfZero then 1 else if c = JumpIfNotZero then -1 else 0) + net l := by
  unfold net
  by_cases h1 : c = JumpIfZero
  · subst h1
    have : JumpIfZero ≠ JumpIfNotZero := by decide
    simp [List.count_cons, this]
    ring
  · by_cases h2 : c = JumpIfNotZero
    · subst h2
      simp [List.count_cons, h1]
      ring
    · have h1' : ¬ (c == JumpIfZero) = true := by simpa using h1
      have h2' : ¬ (c == JumpIfNotZero) = true := by simpa using h2
      simp [List.count_cons, h1, h2]

theorem balanced_iff_net (l : List Byte) : balanced l ↔ net l = 0 := by
  unfold balanced net
  omega

theorem slice_self (p : List Byte) (a : Nat) : slice p a a = [] := by
  simp [slice]

theorem slice_cons (p : List Byte) (a b : Nat) (c : Byte) (hab : a < b)
    (hc : p[a]? = some c) : slice p a b = c :: slice p (a + 1) b := by
  unfold slice
  have hlt : a < p.length := by
    rcases List.getElem?_eq_some_iff.mp hc with ⟨h, _⟩
    exact h
  have hget : p[a] = c := by
    rcases List.getElem?_eq_some_iff.mp hc with ⟨_, h⟩
    exact h
  rw [List.drop_eq_getElem_cons hlt, hget]
  have : b - a = (b - (a + 1)) + 1 := by omega
  rw [this, List.take_succ_cons]

theorem exists_get_some (p : List Byte) (n : Nat) (h : n < p.length) :
    ∃ c, p[n]? = some c :=
  ⟨p[n], List.getElem?_eq_getElem h⟩

/-! ## The jump scans -/

theorem scanForward_zero (ins : List Byte) (fuel ip : Nat) :
    scanForward ins fuel ip 0 = some ip := by
  cases fuel <;> rfl

theorem scanForward_found (ins : List Byte) (j : Nat) (hj : j < ins.length) :
    ∀ (fuel ip depth : Nat), ip ≤ j → j - ip ≤ fuel →
      (depth : Int) + net (slice ins (ip + 1) (j + 1)) = 0 →
      (∀ k, ip ≤ k → k < j → (depth : Int) + net (slice ins (ip + 1) (k + 1)) ≠ 0) →
      scanForward ins fuel ip depth = some j := by
  intro fuel
  induction fuel with
  | zero =>
    intro ip depth hle hfuel h0 _
    have hip : ip = j := by omega
    subst hip
    rw [slice_self, net_nil] at h0
    have : depth = 0 := by omega
    subst this
    rfl
  | succ fuel ih =>
    intro ip depth hle hfuel h0 hne
    rcases Nat.eq_or_lt_of_le hle with hip | hlt
    · subst hip
      rw [slice_self, net_nil] at h0
      have : depth = 0 := by omega
      subst this
      rfl
    · have hd : depth ≠ 0 := by
        intro hd
        have := hne ip (le_refl _) hlt
        rw [slice_self, net_nil, hd] at this
        exact this rfl
      obtain ⟨d, rfl⟩ := Nat.exists_eq_succ_of_ne_zero hd
      have hlen : ip + 1 < ins.length := by omega
      have hc : ins[ip + 1]? = some ins[ip + 1] := List.getElem?_eq_getElem hlen
      generalize ins[ip + 1] = c at hc
      have hcons : ∀ k, ip < k → slice ins (ip + 1) (k + 1) = c :: slice ins (ip + 1 + 1) (k + 1) :=
        fun k hk => slice_cons ins (ip + 1) (k + 1) c (by omega) hc
      simp only [scanForward, hc]
      by_cases h1 : c = JumpIfZero
      · simp only [h1, if_true]
        apply ih (ip + 1) (d + 1 + 1) hlt (by omega)
        · rw [hcons j hlt, net_cons] at h0
          simp only [h1, if_true] at h0
          push_cast at h0 ⊢
          omega
        · intro k hk1 hk2
          have := hne k (by omega) hk2
          rw [hcons k (by omega), net_cons] at this
          simp only [h1, if_true] at this
          push_cast at this ⊢
          omega
      · by_cases h2 : c = JumpIfNotZero
        · simp only [h1, h2, if_true, if_false]
          have hno : ¬ (JumpIfNotZero = JumpIfZero) := by decide
          simp only [hno, if_false]
          apply ih (ip + 1) d hlt (by omega)
          · rw [hcons j hlt, net_cons] at h0
            simp only [h2, hno, if_true, if_false] at h0
            push_cast at h0 ⊢
            omega
          · intro k hk1 hk2
            have := hne k (by omega) hk2
            rw [hcons k (by omega), net_cons] at this
            simp only [h2, hno, if_true, if_false] at this
            push_cast at this ⊢
            omega
        · simp only [h1, h2, if_false]
          apply ih (ip + 1) (d + 1) hlt (by omega)
          · rw [hcons j hlt, net_cons] at h0
            simp only [h1, h2, if_false] at h0
            push_cast at h0 ⊢
            omega
          · intro k hk1 hk2
            have := hne k (by omega) hk2
            rw [hcons k (by omega), net_cons] at this
            simp only [h1, h2, if_false] at this
            push_cast at this ⊢
            omega

theorem scanForward_fuel (ins : List Byte) :
    ∀ (fuel ip depth : Nat), ins.length - ip ≤ fuel →
      scanForward ins (fuel + 1) ip depth = scanForward ins fuel ip depth := by
  intro fuel
  induction fuel with
  | zero =>
    intro ip depth h
    cases depth with
    | zero => rfl
    | succ d =>
      have : ins[ip + 1]? = none := List.getElem?_eq_none (by omega)
      simp [scanForward, this]
  | succ fuel ih =>
    intro ip depth h
    cases depth with
    | zero => rfl
    | succ d =>
      have e1 := ih (ip + 1) (d + 1 + 1) (by omega)
      have e2 := ih (ip + 1) d (by omega)
      have e3 := ih (ip + 1) (d + 1) (by omega)
      rw [scanForward]
      conv_rhs => rw [scanForward]
      cases ins[ip + 1]? with
      | none => rfl
      | some c =>
        simp only
        split_ifs
        · exact e1
        · exact e2
        · exact e3

theorem net_append (l1 l2 : List Byte) : net (l1 ++ l2) = net l1 + net l2 := by
  simp only [net, List.count_append]
  push_cast
  ring

theorem slice_snoc (p : List Byte) (a b : Nat) (c : Byte) (hab : a ≤ b)
    (hc : p[b]? = some c) : slice p a (b + 1) = slice p a b ++ [c] := by
  unfold slice
  have h1 : b + 1 - a = (b - a) + 1 := by omega
  have h2 : (List.drop a p)[b - a]? = some c := by
    rw [List.getElem?_drop]
    have : a + (b - a) = b := by omega
    rw [this]
    exact hc
  rw [h1, List.take_succ, h2]
  rfl

theorem scanBackward_zero (ins : List Byte) (ip : Nat) :
    scanBackward ins ip 0 = some ip := by
  cases ip <;> rfl

theorem scanBackward_found (ins : List Byte) (k : Nat) :
    ∀ (ip depth : Nat), k ≤ ip → ip ≤ ins.length →
      (depth : Int) - net (slice ins k ip) = 0 →
      (∀ m, k < m → m ≤ ip → (depth : Int) - net (slice ins m ip) ≠ 0) →
      scanBackward ins ip depth = some k := by
  intro ip
  induction ip with
  | zero =>
    intro depth hle _ h0 _
    have hk : k = 0 := by omega
    subst hk
    rw [slice_self, net_nil] at h0
    have : depth = 0 := by omega
    subst this
    rfl
  | succ ip ih =>
    intro depth hle hlen h0 hne
    rcases Nat.eq_or_lt_of_le hle with hk | hlt
    · subst hk
      rw [slice_self, net_nil] at h0
      have : depth = 0 := by omega
      subst this
      rfl
    · have hd : depth ≠ 0 := by
        intro hd
        have := hne (ip + 1) hlt (le_refl _)
        rw [slice_self, net_nil, hd] at this
        exact this rfl
      obtain ⟨d, rfl⟩ := Nat.exists_eq_succ_of_ne_zero hd
      have hlen1 : ip < ins.length := by omega
      have hc : ins[ip]? = some ins[ip] := List.getElem?_eq_getElem hlen1
      generalize ins[ip] = c at hc
      have hsnoc : ∀ m, m ≤ ip → net (slice ins m (ip + 1)) = net (slice ins m ip) + net [c] :=
        fun m hm => by rw [slice_snoc ins m ip c hm hc, net_append]
      have hk : k ≤ ip := by omega
      simp only [scanBackward, hc]
      by_cases h2 : c = JumpIfNotZero
      · have hno : ¬ (JumpIfNotZero = JumpIfZero) := by decide
        have hnet : net [c] = -1 := by
          rw [net_cons, net_nil]; simp only [h2, hno, if_true, if_false]; rfl
        simp only [h2, if_true]
        apply ih (d + 1 + 1) hk (by omega)
        · rw [hsnoc k hk, hnet] at h0
          push_cast at h0 ⊢
          omega
        · intro m hm1 hm2
          have := hne m hm1 (by omega)
          rw [hsnoc m hm2, hnet] at this
          push_cast at this ⊢
          omega
      · by_cases h1 : c = JumpIfZero
        · have hnet : net [c] = 1 := by
            rw [net_cons, net_nil]; simp only [h1, if_true]; rfl
          simp only [h1, h2, if_true, if_false]
          have hno : ¬ (JumpIfZero = JumpIfNotZero) := by decide
          simp only [hno, if_false]
          apply ih d hk (by omega)
          · rw [hsnoc k hk, hnet] at h0
            push_cast at h0 ⊢
            omega
          · intro m hm1 hm2
            have := hne m hm1 (by omega)
            rw [hsnoc m hm2, hnet] at this
            push_cast at this ⊢
            omega
        · have hnet : net [c] = 0 := by
            rw [net_cons, net_nil]; simp only [h1, h2, if_false]; rfl
          simp only [h1, h2, if_false]
          apply ih (d + 1) hk (by omega)
          · rw [hsnoc k hk, hnet] at h0
            push_cast at h0 ⊢
            omega
          · intro m hm1 hm2
            have := hne m hm1 (by omega)
            rw [hsnoc m hm2, hnet] at this
            push_cast at this ⊢
            omega

theorem dispatch_JumpIfZero (s : Interpreter) :
    dispatch s JumpIfZero =
      match s.cell with
      | none => Step.panic
      | some v =>
        if v = 0 then
          match scanForward s.instructions (s.instructions.length - s.instructionPointer)
              s.instructionPointer 1 with
          | none => Step.panic
          | some ip => Step.next { s with instructionPointer := ip }
        else Step.next s := by
  have h1 : ¬ (JumpIfZero = Plus) := by decide
  have h2 : ¬ (JumpIfZero = Minus) := by decide
  have h3 : ¬ (JumpIfZero = Right) := by decide
  have h4 : ¬ (JumpIfZero = Left) := by decide
  have h5 : ¬ (JumpIfZero = ReadChar) := by decide
  have h6 : ¬ (JumpIfZero = PutChar) := by decide
  simp only [dispatch, h1, h2, h3, h4, h5, h6, if_false, if_true]

theorem dispatch_JumpIfNotZero (s : Interpreter) :
    dispatch s JumpIfNotZero =
      match s.cell with
      | none => Step.panic
      | some v =>
        if v ≠ 0 then
          match scanBackward s.instructions s.instructionPointer 1 with
          | none => Step.panic
          | some ip => Step.next { s with instructionPointer := ip }
        else Step.next s := by
  have h1 : ¬ (JumpIfNotZero = Plus) := by decide
  have h2 : ¬ (JumpIfNotZero = Minus) := by decide
  have h3 : ¬ (JumpIfNotZero = Right) := by decide
  have h4 : ¬ (JumpIfNotZero = Left) := by decide
  have h5 : ¬ (JumpIfNotZero = ReadChar) := by decide
  have h6 : ¬ (JumpIfNotZero = PutChar) := by decide
  have h7 : ¬ (JumpIfNotZero = JumpIfZero) := by decide
  simp only [dispatch, h1, h2, h3, h4, h5, h6, h7, if_false, if_true]

theorem cell_of_inRange (s : Interpreter) (h : 0 ≤ s.dataPointer ∧ s.dataPointer < tapeLen) :
    s.cell = some (s.tape s.dataPointer.toNat) := by
  simp only [Interpreter.cell, h, and_self, if_true]

/-- C1. Forward jump resolution: when the opening bracket at index `i` has its
matching closing bracket at index `j` (the least index after `i` such that the bytes
`i..j` hold as many opening as closing brackets) and the current cell is 0, the forward
scan ends at `j` without an index-out-of-range panic, and one iteration of the loop of
`Execute` leaves the instruction pointer at `j + 1` and every other field (tape, data
pointer, input, output) unchanged. -/
theorem C1_forward_jump (s : Interpreter) (i j : Nat)
    (hip : s.instructionPointer = i)
    (hopen : s.instructions[i]? = some JumpIfZero)
    (hij : i < j) (hj : j < s.instructions.length)
    (hbal : balanced (slice s.instructions i (j + 1)))
    (hleast : ∀ k, i < k → k < j → ¬ balanced (slice s.instructions i (k + 1)))
    (hdp : 0 ≤ s.dataPointer ∧ s.dataPointer < tapeLen)
    (hcell : s.tape s.dataPointer.toNat = 0) :
    scanForward s.instructions (s.instructions.length - i) i 1 = some j ∧
      iteration s = Step.next { s with instructionPointer := j + 1 } := by
  have hcons : ∀ k, i ≤ k →
      net (slice s.instructions i (k + 1)) = 1 + net (slice s.instructions (i + 1) (k + 1)) := by
    intro k hk
    rw [slice_cons s.instructions i (k + 1) JumpIfZero (by omega) hopen, net_cons]
    simp only [if_true]
  have hscan : scanForward s.instructions (s.instructions.length - i) i 1 = some j := by
    apply scanForward_found s.instructions j hj _ i 1 (le_of_lt hij) (by omega)
    · have := (balanced_iff_net _).mp hbal
      rw [hcons j (le_of_lt hij)] at this
      simpa using this
    · intro k hk1 hk2
      rcases Nat.eq_or_lt_of_le hk1 with hk | hk
      · subst hk
        rw [slice_self, net_nil]
        decide
      · have := hleast k hk hk2
        rw [balanced_iff_net, hcons k hk1] at this
        simpa using this
  refine ⟨hscan, ?_⟩
  unfold iteration
  rw [hip, hopen]
  simp only [dispatch_JumpIfZero, cell_of_inRange s hdp, hcell, if_true, hip, hscan]
  rfl

theorem C1_forward_jump_witness :
    scanForward jumpState.instructions (jumpState.instructions.length - 0) 0 1 = some 3 ∧
      iteration jumpState = Step.next { jumpState with instructionPointer := 3 + 1 } :=
  C1_forward_jump jumpState 0 3 rfl (by decide) (by decide) (by decide) (by decide)
    (by intro k h1 h2; interval_cases k <;> decide) (by decide) rfl

/-- C2. Backward jump resolution: when the closing bracket at index `i` has its
matching opening bracket at index `k` (the greatest index before `i` such that the bytes
`k..i` hold as many opening as closing brackets) and the current cell is not 0, the
backward scan ends at `k` without an index-out-of-range panic, and one iteration of the
loop of `Execute` leaves the instruction pointer at `k + 1` and every other field (tape,
data pointer, input, output) unchanged. -/
theorem C2_backward_jump (s : Interpreter) (i k : Nat)
    (hip : s.instructionPointer = i)
    (hclose : s.instructions[i]? = some JumpIfNotZero)
    (hki : k < i)
    (hbal : balanced (slice s.instructions k (i + 1)))
    (hgreatest : ∀ m, k < m → m < i → ¬ balanced (slice s.instructions m (i + 1)))
    (hdp : 0 ≤ s.dataPointer ∧ s.dataPointer < tapeLen)
    (hcell : s.tape s.dataPointer.toNat ≠ 0) :
    scanBackward s.instructions i 1 = some k ∧
      iteration s = Step.next { s with instructionPointer := k + 1 } := by
  have hlen : i < s.instructions.length := by
    rcases List.getElem?_eq_some_iff.mp hclose with ⟨h, _⟩
    exact h
  have hno : ¬ (JumpIfNotZero = JumpIfZero) := by decide
  have hsnoc : ∀ m, m ≤ i →
      net (slice s.instructions m (i + 1)) = net (slice s.instructions m i) - 1 := by
    intro m hm
    rw [slice_snoc s.instructions m i JumpIfNotZero hm hclose, net_append, net_cons, net_nil]
    simp only [hno, if_true, if_false]
    ring
  have hscan : scanBackward s.instructions i 1 = some k := by
    apply scanBackward_found s.instructions k i 1 (le_of_lt hki) (le_of_lt hlen)
    · have := (balanced_iff_net _).mp hbal
      rw [hsnoc k (le_of_lt hki)] at this
      push_cast
      omega
    · intro m hm1 hm2
      rcases Nat.eq_or_lt_of_le hm2 with hm | hm
      · subst hm
        rw [slice_self, net_nil]
        decide
      · have := hgreatest m hm1 hm
        rw [balanced_iff_net, hsnoc m hm2] at this
        push_cast
        omega
  refine ⟨hscan, ?_⟩
  unfold iteration
  rw [hip, hclose]
  simp only [dispatch_JumpIfNotZero, cell_of_inRange s hdp, hcell, ne_eq, not_false_eq_true,
    if_true, hip, hscan]
  rfl

theorem C2_backward_jump_witness :
    scanBackward backState.instructions 3 1 = some 0 ∧
      iteration backState = Step.next { backState with instructionPointer := 0 + 1 } :=
  C2_backward_jump backState 3 0 rfl (by decide) (by decide) (by decide)
    (by intro k h1 h2; interval_cases k <;> decide) (by decide) (by decide)

/-! ## Loading and validation -/

theorem readLoop_stringsReader (p : List Byte) :
    ∀ (fuel k : Nat) (acc : List Byte), k ≤ p.length → p.length - k < fuel →
      readLoop fuel { stringsReader p with calls := k } acc =
        some (acc ++ p.drop k, { stringsReader p with calls := p.length + 1 }) := by
  intro fuel
  induction fuel with
  | zero => intro k acc _ h; omega
  | succ fuel ih =>
    intro k acc hk hfuel
    rcases Nat.eq_or_lt_of_le hk with hk1 | hk1
    · subst hk1
      have hres : (stringsReader p).results p.length = { data := none, err := some Error.EOF } := by
        simp [stringsReader]
      simp [readLoop, Reader.Read, hres]
    · have hget : p[k]? = some p[k] := List.getElem?_eq_getElem hk1
      have hres : (stringsReader p).results k = { data := some p[k], err := none } := by
        simp [stringsReader, hget]
      have := ih (k + 1) (acc ++ [p[k]]) hk1 (by omega)
      simp only [readLoop, Reader.Read, hres]
      simp only [reduceCtorEq, if_false]
      rw [this, List.append_assoc, List.singleton_append, ← List.drop_eq_getElem_cons hk1]

theorem readLoop_stringsReader_short (p : List Byte) :
    ∀ (fuel k : Nat) (acc : List Byte), fuel + k ≤ p.length →
      readLoop fuel { stringsReader p with calls := k } acc = none := by
  intro fuel
  induction fuel with
  | zero => intro k acc _; rfl
  | succ fuel ih =>
    intro k acc hk
    have hk1 : k < p.length := by omega
    have hget : p[k]? = some p[k] := List.getElem?_eq_getElem hk1
    have hres : (stringsReader p).results k = { data := some p[k], err := none } := by
      simp [stringsReader, hget]
    have := ih (k + 1) (acc ++ [p[k]]) (by omega)
    simp only [readLoop, Reader.Read, hres]
    simp only [reduceCtorEq, if_false]
    exact this

theorem readAllInstructions_new (p : List Byte) (input : Reader) (out : Writer) (fuel : Nat)
    (h : p.length < fuel) :
    readAllInstructions fuel (NewInterpreter (stringsReader p) input out) =
      some (loaded p input out) := by
  have := readLoop_stringsReader p fuel 0 [] (Nat.zero_le _) (by omega)
  have h0 : ({ stringsReader p with calls := 0 } : Reader) = stringsReader p := rfl
  rw [h0] at this
  simp [readAllInstructions, NewInterpreter, this, loaded]

theorem IsValid_new (p : List Byte) (input : Reader) (out : Writer) (fuel : Nat)
    (h : p.length < fuel) :
    IsValid fuel (NewInterpreter (stringsReader p) input out) =
      some (validate p, loaded p input out) := by
  simp only [IsValid, readAllInstructions_new p input out fuel h]
  rfl

theorem Execute_new (p : List Byte) (input : Reader) (out : Writer) (fuel : Nat)
    (h : p.length < fuel) :
    Execute fuel (NewInterpreter (stringsReader p) input out) =
      executeLoop fuel (loaded p input out) := by
  simp only [Execute, readAllInstructions_new p input out fuel h]

theorem Execute_new_short (p : List Byte) (input : Reader) (out : Writer) (fuel : Nat)
    (h : fuel ≤ p.length) :
    Execute fuel (NewInterpreter (stringsReader p) input out) = Outcome.timeout := by
  have := readLoop_stringsReader_short p fuel 0 [] (by omega)
  have h0 : ({ stringsReader p with calls := 0 } : Reader) = stringsReader p := rfl
  rw [h0] at this
  simp [Execute, readAllInstructions, NewInterpreter, this]

theorem validateLoop_spec : ∀ (l : List Byte) (c : Int), 0 ≤ c →
    (∀ e, validateLoop l c = Sum.inl e →
        e = some errBefore ∧ ∃ n, c + net (l.take n) < 0) ∧
    (∀ c1, validateLoop l c = Sum.inr c1 →
        c1 = c + net l ∧ ∀ n, 0 ≤ c + net (l.take n)) := by
  intro l
  induction l with
  | nil =>
    intro c hc
    constructor
    · intro e h; simp [validateLoop] at h
    · intro c1 h
      simp only [validateLoop, Sum.inr.injEq] at h
      subst h
      simp [net_nil, hc]
  | cons op rest ih =>
    intro c hc
    have htake : ∀ n, net ((op :: rest).take (n + 1)) =
        (if op = JumpIfZero then 1 else if op = JumpIfNotZero then -1 else 0)
          + net (rest.take n) := by
      intro n; rw [List.take_succ_cons, net_cons]
    by_cases h1 : op = JumpIfZero
    · have hstep : validateLoop (op :: rest) c = validateLoop rest (c + 1) := by
        simp [validateLoop, h1]
      rw [hstep]
      obtain ⟨ihl, ihr⟩ := ih (c + 1) (by omega)
      constructor
      · intro e he
        obtain ⟨h2, n, hn⟩ := ihl e he
        refine ⟨h2, n + 1, ?_⟩
        rw [htake]; simp only [h1, if_true]; omega
      · intro c1 hc1
        obtain ⟨h2, h3⟩ := ihr c1 hc1
        refine ⟨?_, ?_⟩
        · rw [net_cons]; simp only [h1, if_true]; omega
        · intro n
          cases n with
          | zero => simp [net_nil, hc]
          | succ n => rw [htake]; simp only [h1, if_true]; have := h3 n; omega
    · by_cases h2 : op = JumpIfNotZero
      · subst h2
        have hno : ¬ (JumpIfNotZero = JumpIfZero) := by decide
        simp only [hno, if_true, if_false] at htake
        by_cases hneg : c - 1 < 0
        · have hstep : validateLoop (JumpIfNotZero :: rest) c = Sum.inl (some errBefore) := by
            simp [validateLoop, hno, hneg, errBefore]
          rw [hstep]
          constructor
          · intro e he
            simp only [Sum.inl.injEq] at he
            refine ⟨he.symm, 1, ?_⟩
            have := htake 0
            simp only [List.take_zero, net_nil, Nat.zero_add] at this
            rw [this]; omega
          · intro c1 hc1; simp at hc1
        · have hstep : validateLoop (JumpIfNotZero :: rest) c = validateLoop rest (c - 1) := by
            simp [validateLoop, hno, hneg]
          rw [hstep]
          obtain ⟨ihl, ihr⟩ := ih (c - 1) (by omega)
          constructor
          · intro e he
            obtain ⟨h3, n, hn⟩ := ihl e he
            refine ⟨h3, n + 1, ?_⟩
            rw [htake]; omega
          · intro c1 hc1
            obtain ⟨h3, h4⟩ := ihr c1 hc1
            refine ⟨?_, ?_⟩
            · rw [net_cons]; simp only [hno, if_true, if_false]; omega
            · intro n
              cases n with
              | zero => simp [net_nil, hc]
              | succ n => rw [htake]; have := h4 n; omega
      · have hstep : validateLoop (op :: rest) c = validateLoop rest c := by
          simp [validateLoop, h1, h2]
        rw [hstep]
        obtain ⟨ihl, ihr⟩ := ih c hc
        constructor
        · intro e he
          obtain ⟨h3, n, hn⟩ := ihl e he
          refine ⟨h3, n + 1, ?_⟩
          rw [htake]; simp only [h1, h2, if_false]; omega
        · intro c1 hc1
          obtain ⟨h3, h4⟩ := ihr c1 hc1
          refine ⟨?_, ?_⟩
          · rw [net_cons]; simp only [h1, h2, if_false]; omega
          · intro n
            cases n with
            | zero => simp [net_nil, hc]
            | succ n => rw [htake]; simp only [h1, h2, if_false]; have := h4 n; omega

/-- The body of `IsValid` gives the first error exactly when some initial part of the
program has more closing than opening brackets, and no error otherwise. -/
theorem validate_spec (p : List Byte) :
    (validate p = some errBefore ↔ ∃ n, net (p.take n) < 0) ∧
    (validate p = none ↔ ∀ n, 0 ≤ net (p.take n)) := by
  obtain ⟨hl, hr⟩ := validateLoop_spec p 0 (le_refl _)
  cases hv : validateLoop p 0 with
  | inl e =>
    obtain ⟨he, n, hn⟩ := hl e hv
    have hval : validate p = some errBefore := by simp [validate, hv, he]
    refine ⟨⟨fun _ => ⟨n, by simpa using hn⟩, fun _ => hval⟩, ?_⟩
    rw [hval]
    constructor
    · intro h; simp at h
    · intro h; have := h n; omega
  | inr c1 =>
    obtain ⟨hc1, hall⟩ := hr c1 hv
    have hnonneg : 0 ≤ c1 := by
      have := hall p.length
      simp only [List.take_length, zero_add] at this
      omega
    have hval : validate p = none := by
      simp [validate, hv, not_lt.mpr hnonneg]
    rw [hval]
    refine ⟨⟨fun h => by simp at h, fun ⟨n, hn⟩ => ?_⟩, ⟨fun _ n => ?_, fun _ => rfl⟩⟩
    · have := hall n; omega
    · have := hall n; omega

/-! ## The validator -/

theorem net_neg_iff (l : List Byte) : net l < 0 ↔ l.count JumpIfZero < l.count JumpIfNotZero := by
  unfold net; omega

theorem count_take_firstClose (p : List Byte) (k : Nat)
    (hk : p[k]? = some JumpIfNotZero)
    (hfirst : ∀ j : Nat, j < k → p[j]? ≠ some JumpIfZero ∧ p[j]? ≠ some JumpIfNotZero) :
    (p.take (k + 1)).count JumpIfZero < (p.take (k + 1)).count JumpIfNotZero := by
  have hzero : (p.take (k + 1)).count JumpIfZero = 0 := by
    rw [List.count_eq_zero]
    intro hmem
    obtain ⟨j, hj⟩ := List.mem_iff_getElem?.mp hmem
    rw [List.getElem?_take] at hj
    split at hj
    · rename_i hlt
      rcases Nat.eq_or_lt_of_le (Nat.le_of_lt_succ hlt) with h | h
      · subst h
        rw [hk] at hj
        exact absurd hj (by decide)
      · exact (hfirst j h).1 hj
    · simp at hj
  have hpos : 0 < (p.take (k + 1)).count JumpIfNotZero := by
    rw [List.count_pos_iff]
    apply List.mem_iff_getElem?.mpr
    refine ⟨k, ?_⟩
    rw [List.getElem?_take]
    simp [hk]
  omega

theorem IsValid_new_fst (p : List Byte) (input : Reader) (out : Writer) (fuel : Nat)
    (h : p.length < fuel) :
    (IsValid fuel (NewInterpreter (stringsReader p) input out)).map Prod.fst =
      some (validate p) := by
  rw [IsValid_new p input out fuel h]; rfl

/-- C3. For every program, `IsValid` (on an interpreter made from the program's text)
returns the error "Invalid code: ] is before [" if and only if some initial part of the
program contains more closing than opening brackets; in particular it does so for every
program whose first bracket is a closing one. -/
theorem C3_isValid_unclosed_before_open (p : List Byte) (input : Reader) (out : Writer)
    (extra : Nat) :
    ((IsValid (p.length + 1 + extra) (NewInterpreter (stringsReader p) input out)).map Prod.fst
        = some (some errBefore) ↔
      ∃ n, (p.take n).count JumpIfZero < (p.take n).count JumpIfNotZero) ∧
    (∀ k : Nat, p[k]? = some JumpIfNotZero →
      (∀ j : Nat, j < k → p[j]? ≠ some JumpIfZero ∧ p[j]? ≠ some JumpIfNotZero) →
      (IsValid (p.length + 1 + extra) (NewInterpreter (stringsReader p) input out)).map Prod.fst
        = some (some errBefore)) := by
  have hv := IsValid_new_fst p input out (p.length + 1 + extra) (by omega)
  have hiff : validate p = some errBefore ↔
      ∃ n, (p.take n).count JumpIfZero < (p.take n).count JumpIfNotZero := by
    rw [(validate_spec p).1]
    constructor
    · rintro ⟨n, hn⟩; exact ⟨n, (net_neg_iff _).mp hn⟩
    · rintro ⟨n, hn⟩; exact ⟨n, (net_neg_iff _).mpr hn⟩
  rw [hv]
  constructor
  · rw [← hiff]
    constructor
    · intro h; exact Option.some.inj h
    · intro h; rw [h]
  · intro k hk hfirst
    rw [hiff.mpr ⟨k + 1, count_take_firstClose p k hk hfirst⟩]

theorem C3_isValid_unclosed_before_open_witness :
    (IsValid (3 + 1 + 0) (NewInterpreter (stringsReader (goString "+][")) (stringsReader [])
      bytesBuffer)).map Prod.fst = some (some errBefore) :=
  (C3_isValid_unclosed_before_open (goString "+][") (stringsReader []) bytesBuffer 0).2 1
    (by decide) (by intro j hj; interval_cases j; decide)

/-- C4. `IsValid` returns no error for the program `[` and for the test fixture
`+[----->+++<[>+.---.++++++.`, although both end with unmatched opening brackets: the
final test `count < 0` can never succeed. -/
theorem C4_isValid_accepts_unclosed_open (input : Reader) (out : Writer) :
    (IsValid 2 (NewInterpreter (stringsReader (goString "[")) input out)).map Prod.fst
        = some none ∧
    (IsValid 28 (NewInterpreter (stringsReader (goString "+[----->+++<[>+.---.++++++."))
      input out)).map Prod.fst = some none := by
  constructor
  · rw [IsValid_new_fst _ input out 2 (by decide)]; decide
  · rw [IsValid_new_fst _ input out 28 (by decide)]; decide

/-- The second error of `IsValid` is never returned: for the test fixture
`+[----->+++]<]>+++.+++++++++++.` (one closing bracket more) the result is
"Invalid code: ] is before [", for `[` (one opening bracket more) it is no error, and
for no program at all is it "Invalid code: Mismatched []". -/
theorem isValid_never_mismatched (input : Reader) (out : Writer) :
    (IsValid 32 (NewInterpreter (stringsReader (goString "+[----->+++]<]>+++.+++++++++++."))
      input out)).map Prod.fst = some (some errBefore) ∧
    (IsValid 2 (NewInterpreter (stringsReader (goString "[")) input out)).map Prod.fst
        = some none ∧
    (∀ (p : List Byte) (extra : Nat),
      (IsValid (p.length + 1 + extra) (NewInterpreter (stringsReader p) input out)).map Prod.fst
        ≠ some (some errMismatched)) := by
  refine ⟨?_, ?_, ?_⟩
  · rw [IsValid_new_fst _ input out 32 (by decide)]; decide
  · rw [IsValid_new_fst _ input out 2 (by decide)]; decide
  · intro p extra
    rw [IsValid_new_fst p input out _ (by omega)]
    have h := validate_spec p
    by_cases hex : ∃ n, net (p.take n) < 0
    · rw [h.1.mpr hex]
      decide
    · have : validate p = none := h.2.mpr (fun n => by
        by_contra hn; exact hex ⟨n, by omega⟩)
      rw [this]
      decide

/-- C5 fails: the test fixture `+----->+++]<]>+++.+++++++++++.` has no opening and two
closing brackets, and `IsValid` returns "Invalid code: ] is before [" for it, which is
not the error "Invalid code: Mismatched []". -/
theorem C5_counterexample :
    closeFirstProgram.count JumpIfZero ≠ closeFirstProgram.count JumpIfNotZero ∧
    (IsValid 31 (NewInterpreter (stringsReader closeFirstProgram) (stringsReader [])
      bytesBuffer)).map Prod.fst = some (some errBefore) ∧
    errBefore ≠ errMismatched := by
  refine ⟨by decide, ?_, by decide⟩
  rw [IsValid_new_fst _ _ _ 31 (by decide)]
  decide

/-- C5, as the code has it: for every program that holds more closing than opening
brackets in total, `IsValid` returns an error. -/
theorem C5_isValid_rejects_surplus_close (p : List Byte) (input : Reader) (out : Writer)
    (extra : Nat) (h : p.count JumpIfZero < p.count JumpIfNotZero) :
    ∃ e, (IsValid (p.length + 1 + extra) (NewInterpreter (stringsReader p) input out)).map
      Prod.fst = some (some e) := by
  refine ⟨errBefore, ?_⟩
  rw [IsValid_new_fst p input out _ (by omega)]
  have : validate p = some errBefore :=
    (validate_spec p).1.mpr ⟨p.length, by rw [List.take_length]; exact (net_neg_iff p).mpr h⟩
  rw [this]

theorem C5_isValid_rejects_surplus_close_witness :
    ∃ e, (IsValid (31 + 1 + 0) (NewInterpreter
      (stringsReader (goString "+[----->+++]<]>+++.+++++++++++.")) (stringsReader [])
      bytesBuffer)).map Prod.fst = some (some e) :=
  C5_isValid_rejects_surplus_close (goString "+[----->+++]<]>+++.+++++++++++.")
    (stringsReader []) bytesBuffer 0 (by decide)

/-! ## Single instructions and straight-line runs -/

theorem dispatch_Plus (s : Interpreter) (v : Int) (h : s.cell = some v) :
    dispatch s Plus = Step.next (s.setCell (if v + 1 = 256 then 0 else v + 1)) := by
  simp only [dispatch, if_true, h]

theorem dispatch_Plus_panic (s : Interpreter) (h : s.cell = none) :
    dispatch s Plus = Step.panic := by
  simp only [dispatch, if_true, h]

theorem dispatch_Minus (s : Interpreter) (v : Int) (h : s.cell = some v) :
    dispatch s Minus = Step.next (s.setCell (if v - 1 = -1 then 255 else v - 1)) := by
  have h1 : ¬ (Minus = Plus) := by decide
  simp only [dispatch, h1, if_false, if_true, h]

theorem dispatch_Minus_panic (s : Interpreter) (h : s.cell = none) :
    dispatch s Minus = Step.panic := by
  have h1 : ¬ (Minus = Plus) := by decide
  simp only [dispatch, h1, if_false, if_true, h]

theorem dispatch_Right (s : Interpreter) :
    dispatch s Right = Step.next { s with dataPointer := s.dataPointer + 1 } := by
  have h1 : ¬ (Right = Plus) := by decide
  have h2 : ¬ (Right = Minus) := by decide
  simp only [dispatch, h1, h2, if_false, if_true]

theorem dispatch_Left (s : Interpreter) :
    dispatch s Left = Step.next { s with dataPointer := s.dataPointer - 1 } := by
  have h1 : ¬ (Left = Plus) := by decide
  have h2 : ¬ (Left = Minus) := by decide
  have h3 : ¬ (Left = Right) := by decide
  simp only [dispatch, h1, h2, h3, if_false, if_true]

theorem dispatch_ReadChar (s : Interpreter) : dispatch s ReadChar = readChar s := by
  have h1 : ¬ (ReadChar = Plus) := by decide
  have h2 : ¬ (ReadChar = Minus) := by decide
  have h3 : ¬ (ReadChar = Right) := by decide
  have h4 : ¬ (ReadChar = Left) := by decide
  simp only [dispatch, h1, h2, h3, h4, if_false, if_true]

theorem dispatch_PutChar (s : Interpreter) : dispatch s PutChar = putChar s := by
  have h1 : ¬ (PutChar = Plus) := by decide
  have h2 : ¬ (PutChar = Minus) := by decide
  have h3 : ¬ (PutChar = Right) := by decide
  have h4 : ¬ (PutChar = Left) := by decide
  have h5 : ¬ (PutChar = ReadChar) := by decide
  simp only [dispatch, h1, h2, h3, h4, h5, if_false, if_true]

theorem dispatch_other (s : Interpreter) (c : Byte) (h1 : c ≠ Plus) (h2 : c ≠ Minus)
    (h3 : c ≠ Right) (h4 : c ≠ Left) (h5 : c ≠ ReadChar) (h6 : c ≠ PutChar)
    (h7 : c ≠ JumpIfZero) (h8 : c ≠ JumpIfNotZero) : dispatch s c = Step.next s := by
  simp only [dispatch, h1, h2, h3, h4, h5, h6, h7, h8, if_false]

theorem iteration_next (s s1 : Interpreter) (c : Byte)
    (h : s.instructions[s.instructionPointer]? = some c) (hd : dispatch s c = Step.next s1) :
    iteration s = Step.next s1.advance := by
  simp only [iteration, h, hd]

theorem iteration_ret (s s1 : Interpreter) (c : Byte) (e : Error)
    (h : s.instructions[s.instructionPointer]? = some c) (hd : dispatch s c = Step.ret e s1) :
    iteration s = Step.ret e s1 := by
  simp only [iteration, h, hd]

theorem iteration_panic (s : Interpreter) (c : Byte)
    (h : s.instructions[s.instructionPointer]? = some c) (hd : dispatch s c = Step.panic) :
    iteration s = Step.panic := by
  simp only [iteration, h, hd]

theorem executeLoop_done (fuel : Nat) (s : Interpreter)
    (h : ¬ s.instructionPointer < s.instructions.length) :
    executeLoop fuel s = Outcome.returned none s := by
  unfold executeLoop; simp only [h, if_false]

theorem executeLoop_step (fuel : Nat) (s s1 : Interpreter)
    (h : s.instructionPointer < s.instructions.length) (hs : iteration s = Step.next s1) :
    executeLoop (fuel + 1) s = executeLoop fuel s1 := by
  conv_lhs => unfold executeLoop
  simp only [h, if_true, hs]

theorem executeLoop_ret (fuel : Nat) (s s1 : Interpreter) (e : Error)
    (h : s.instructionPointer < s.instructions.length) (hs : iteration s = Step.ret e s1) :
    executeLoop (fuel + 1) s = Outcome.returned (some e) s1 := by
  conv_lhs => unfold executeLoop
  simp only [h, if_true, hs]

theorem executeLoop_panic (fuel : Nat) (s : Interpreter)
    (h : s.instructionPointer < s.instructions.length) (hs : iteration s = Step.panic) :
    executeLoop (fuel + 1) s = Outcome.panicked := by
  conv_lhs => unfold executeLoop
  simp only [h, if_true, hs]

theorem executeLoop_timeout (s : Interpreter)
    (h : s.instructionPointer < s.instructions.length) :
    executeLoop 0 s = Outcome.timeout := by
  unfold executeLoop; simp only [h, if_true]

theorem executeLoop_fuel_succ : ∀ (fuel : Nat) (s : Interpreter),
    executeLoop fuel s ≠ Outcome.timeout → executeLoop (fuel + 1) s = executeLoop fuel s := by
  intro fuel
  induction fuel with
  | zero =>
    intro s h
    by_cases hlt : s.instructionPointer < s.instructions.length
    · exact absurd (executeLoop_timeout s hlt) h
    · rw [executeLoop_done _ s hlt, executeLoop_done _ s hlt]
  | succ fuel ih =>
    intro s h
    by_cases hlt : s.instructionPointer < s.instructions.length
    · cases hstep : iteration s with
      | next s1 =>
        rw [executeLoop_step _ s s1 hlt hstep] at h ⊢
        rw [executeLoop_step _ s s1 hlt hstep]
        exact ih s1 h
      | ret e s1 =>
        rw [executeLoop_ret _ s s1 e hlt hstep, executeLoop_ret _ s s1 e hlt hstep]
      | panic =>
        rw [executeLoop_panic _ s hlt hstep, executeLoop_panic _ s hlt hstep]
    · rw [executeLoop_done _ s hlt, executeLoop_done _ s hlt]

theorem executeLoop_fuel_add (fuel : Nat) (s : Interpreter)
    (h : executeLoop fuel s ≠ Outcome.timeout) :
    ∀ k, executeLoop (fuel + k) s = executeLoop fuel s := by
  intro k
  induction k with
  | zero => rfl
  | succ k ih =>
    rw [← Nat.add_assoc, executeLoop_fuel_succ (fuel + k) s (by rw [ih]; exact h), ih]

/-- A run of `m` equal instructions `c`, each of which changes only the current cell
by `f`, where `f` is `+ d` modulo 256 on `0..255`. -/
theorem executeLoop_run (c : Byte) (f : Int → Int) (d : Int)
    (hstep : ∀ s : Interpreter, s.instructions[s.instructionPointer]? = some c →
      s.dataPointer = 0 → iteration s = Step.next (s.setCell (f (s.tape 0))).advance)
    (hf : ∀ v : Int, 0 ≤ v → v ≤ 255 → f v = (v + d) % 256) :
    ∀ (m : Nat) (s : Interpreter) (fuel : Nat),
      s.instructions = List.replicate (s.instructionPointer + m) c →
      s.dataPointer = 0 → 0 ≤ s.tape 0 → s.tape 0 ≤ 255 → m ≤ fuel →
      ∃ s1, executeLoop fuel s = Outcome.returned none s1 ∧
        s1.tape 0 = (s.tape 0 + m * d) % 256 ∧ ∀ k, k ≠ 0 → s1.tape k = s.tape k := by
  intro m
  induction m with
  | zero =>
    intro s fuel hins _ h0 h255 _
    refine ⟨s, executeLoop_done fuel s ?_, ?_, fun _ _ => rfl⟩
    · rw [hins]; simp
    · simp only [Nat.cast_zero, zero_mul, add_zero]; omega
  | succ m ih =>
    intro s fuel hins hdp h0 h255 hfuel
    obtain ⟨fuel, rfl⟩ : ∃ f1, fuel = f1 + 1 := ⟨fuel - 1, by omega⟩
    have hlt : s.instructionPointer < s.instructions.length := by
      rw [hins]; simp
    have hget : s.instructions[s.instructionPointer]? = some c := by
      rw [List.getElem?_eq_getElem hlt]
      congr 1
      have hall : ∀ x ∈ s.instructions, x = c := by
        intro x hx
        rw [hins] at hx
        exact (List.mem_replicate.mp hx).2
      exact hall _ (List.getElem_mem _)
    have hit := hstep s hget hdp
    rw [executeLoop_step fuel s _ hlt hit]
    have hv := hf (s.tape 0) h0 h255
    have hnew : ((s.setCell (f (s.tape 0))).advance).tape 0 = (s.tape 0 + d) % 256 := by
      simp [Interpreter.advance, Interpreter.setCell, hdp, hv]
    have hother : ∀ k, k ≠ 0 → ((s.setCell (f (s.tape 0))).advance).tape k = s.tape k := by
      intro k hk
      simp [Interpreter.advance, Interpreter.setCell, hdp, hk]
    obtain ⟨s1, h1, h2, h3⟩ := ih ((s.setCell (f (s.tape 0))).advance) fuel
      (by simp only [Interpreter.advance, Interpreter.setCell]; rw [hins]; congr 1; omega)
      (by simp [Interpreter.advance, Interpreter.setCell, hdp])
      (by rw [hnew]; omega) (by rw [hnew]; omega) (by omega)
    refine ⟨s1, h1, ?_, ?_⟩
    · rw [h2, hnew]
      have hm : ((m + 1 : Nat) : Int) * d = (m : Int) * d + d := by push_cast; ring
      rw [hm]
      generalize (m : Int) * d = x
      omega
    · intro k hk; rw [h3 k hk, hother k hk]

/-! ## The tape invariant -/

theorem tapeOK_of_tape_eq (s s1 : Interpreter) (h : s1.tape = s.tape) (hs : tapeOK s) :
    tapeOK s1 := by
  intro k; rw [h]; exact hs k

theorem tapeOK_setCell (s : Interpreter) (v : Int) (hs : tapeOK s) (h0 : 0 ≤ v)
    (h1 : v ≤ 255) : tapeOK (s.setCell v) := by
  intro k
  simp only [Interpreter.setCell]
  split_ifs
  · exact ⟨h0, h1⟩
  · exact hs k

theorem cell_tapeOK (s : Interpreter) (v : Int) (hs : tapeOK s) (h : s.cell = some v) :
    0 ≤ v ∧ v ≤ 255 := by
  unfold Interpreter.cell at h
  split_ifs at h
  simp only [Option.some.injEq] at h
  rw [← h]
  exact hs _

theorem readChar_tapeOK (s : Interpreter) (hs : tapeOK s) : (readChar s).All tapeOK := by
  unfold readChar
  simp only [Reader.Read]
  split
  · exact tapeOK_of_tape_eq s _ rfl hs
  · split
    · exact tapeOK_of_tape_eq s _ rfl hs
    · rename_i b _
      split
      · trivial
      · apply tapeOK_setCell _ _ (tapeOK_of_tape_eq s _ rfl hs)
        · exact Int.ofNat_nonneg _
        · have := b.isLt
          omega

theorem putChar_tapeOK (s : Interpreter) (hs : tapeOK s) : (putChar s).All tapeOK := by
  unfold putChar
  split
  · trivial
  · simp only [Writer.Write]
    split
    · exact tapeOK_of_tape_eq s _ rfl hs
    · split_ifs
      · exact tapeOK_of_tape_eq s _ rfl hs
      · exact tapeOK_of_tape_eq s _ rfl hs

theorem dispatch_tapeOK (s : Interpreter) (c : Byte) (hs : tapeOK s) :
    (dispatch s c).All tapeOK := by
  unfold dispatch
  split_ifs
  · split
    · trivial
    · rename_i v hv
      obtain ⟨h0, h1⟩ := cell_tapeOK s v hs hv
      apply tapeOK_setCell s _ hs <;> split_ifs <;> omega
  · split
    · trivial
    · rename_i v hv
      obtain ⟨h0, h1⟩ := cell_tapeOK s v hs hv
      apply tapeOK_setCell s _ hs <;> split_ifs <;> omega
  · exact tapeOK_of_tape_eq s _ rfl hs
  · exact tapeOK_of_tape_eq s _ rfl hs
  · exact readChar_tapeOK s hs
  · exact putChar_tapeOK s hs
  · split
    · trivial
    · split_ifs
      · split
        · trivial
        · exact tapeOK_of_tape_eq s _ rfl hs
      · exact hs
  · split
    · trivial
    · split_ifs
      · split
        · trivial
        · exact tapeOK_of_tape_eq s _ rfl hs
      · exact hs
  · exact hs

theorem iteration_tapeOK (s : Interpreter) (hs : tapeOK s) : (iteration s).All tapeOK := by
  unfold iteration
  split
  · trivial
  · rename_i ins _
    have := dispatch_tapeOK s ins hs
    split
    · rename_i s1 h1
      rw [h1] at this
      exact tapeOK_of_tape_eq s1 _ rfl this
    · rename_i r hr
      exact this

theorem stateAfter_tapeOK : ∀ (n : Nat) (s : Interpreter), tapeOK s → tapeOK (stateAfter n s) := by
  intro n
  induction n with
  | zero => intro s hs; exact hs
  | succ n ih =>
    intro s hs
    simp only [stateAfter]
    split_ifs
    · have := iteration_tapeOK s hs
      split
      · rename_i s1 h1
        rw [h1] at this
        exact ih s1 this
      · rename_i e s1 h1
        rw [h1] at this
        exact this
      · exact hs
    · exact hs

theorem executeLoop_tapeOK : ∀ (fuel : Nat) (s : Interpreter) (err : Option Error)
    (s1 : Interpreter), tapeOK s → executeLoop fuel s = Outcome.returned err s1 → tapeOK s1 := by
  intro fuel
  induction fuel with
  | zero =>
    intro s err s1 hs h
    by_cases hlt : s.instructionPointer < s.instructions.length
    · rw [executeLoop_timeout s hlt] at h; cases h
    · rw [executeLoop_done 0 s hlt] at h
      cases h; exact hs
  | succ fuel ih =>
    intro s err s1 hs h
    by_cases hlt : s.instructionPointer < s.instructions.length
    · have hit := iteration_tapeOK s hs
      cases hstep : iteration s with
      | next s2 =>
        rw [hstep] at hit
        rw [executeLoop_step fuel s s2 hlt hstep] at h
        exact ih s2 err s1 hit h
      | ret e s2 =>
        rw [hstep] at hit
        rw [executeLoop_ret fuel s s2 e hlt hstep] at h
        cases h; exact hit
      | panic =>
        rw [executeLoop_panic fuel s hlt hstep] at h; cases h
    · rw [executeLoop_done _ s hlt] at h
      cases h; exact hs

/-! ## Wrap-around, the tape invariant, end-to-end runs and pointer moves -/

theorem iteration_Plus_zero (s : Interpreter)
    (h : s.instructions[s.instructionPointer]? = some Plus) (hdp : s.dataPointer = 0) :
    iteration s =
      Step.next (s.setCell (if s.tape 0 + 1 = 256 then 0 else s.tape 0 + 1)).advance := by
  have hc : s.cell = some (s.tape 0) := by
    rw [cell_of_inRange s (by rw [hdp]; decide), hdp]; rfl
  exact iteration_next s _ Plus h (dispatch_Plus s _ hc)

theorem iteration_Minus_zero (s : Interpreter)
    (h : s.instructions[s.instructionPointer]? = some Minus) (hdp : s.dataPointer = 0) :
    iteration s =
      Step.next (s.setCell (if s.tape 0 - 1 = -1 then 255 else s.tape 0 - 1)).advance := by
  have hc : s.cell = some (s.tape 0) := by
    rw [cell_of_inRange s (by rw [hdp]; decide), hdp]; rfl
  exact iteration_next s _ Minus h (dispatch_Minus s _ hc)

/-- C6. Wrap-around arithmetic: executing `n` times `+` on a fresh interpreter returns
no error and leaves cell 0 equal to `n mod 256`; executing `n` times `-` leaves it equal
to `(-n) mod 256`; all other cells stay 0. -/
theorem C6_wraparound (n : Nat) (input : Reader) (out : Writer) (extra : Nat) :
    (∃ s1, Execute (n + 1 + extra)
          (NewInterpreter (stringsReader (List.replicate n Plus)) input out)
        = Outcome.returned none s1 ∧
      s1.tape 0 = (n : Int) % 256 ∧ ∀ k, k ≠ 0 → s1.tape k = 0) ∧
    (∃ s1, Execute (n + 1 + extra)
          (NewInterpreter (stringsReader (List.replicate n Minus)) input out)
        = Outcome.returned none s1 ∧
      s1.tape 0 = (-(n : Int)) % 256 ∧ ∀ k, k ≠ 0 → s1.tape k = 0) := by
  constructor
  · rw [Execute_new _ input out _ (by simp; omega)]
    obtain ⟨s1, h1, h2, h3⟩ := executeLoop_run Plus
      (fun v => if v + 1 = 256 then 0 else v + 1) 1 iteration_Plus_zero
      (by intro v h0 h1; dsimp only; split_ifs <;> omega)
      n (loaded (List.replicate n Plus) input out) (n + 1 + extra)
      (by simp [loaded, NewInterpreter]) rfl (le_refl _) (by show (0 : Int) ≤ 255; decide) (by omega)
    refine ⟨s1, h1, ?_, fun k hk => by rw [h3 k hk]; rfl⟩
    rw [h2]
    simp [loaded, NewInterpreter]
  · rw [Execute_new _ input out _ (by simp; omega)]
    obtain ⟨s1, h1, h2, h3⟩ := executeLoop_run Minus
      (fun v => if v - 1 = -1 then 255 else v - 1) (-1) iteration_Minus_zero
      (by intro v h0 h1; dsimp only; split_ifs <;> omega)
      n (loaded (List.replicate n Minus) input out) (n + 1 + extra)
      (by simp [loaded, NewInterpreter]) rfl (le_refl _) (by show (0 : Int) ≤ 255; decide) (by omega)
    refine ⟨s1, h1, ?_, fun k hk => by rw [h3 k hk]; rfl⟩
    rw [h2]
    simp [loaded, NewInterpreter]

theorem readAllInstructions_tape (fuel : Nat) (i i1 : Interpreter)
    (h : readAllInstructions fuel i = some i1) : i1.tape = i.tape := by
  unfold readAllInstructions at h
  split_ifs at h
  · cases h; rfl
  · split at h
    · cases h
    · cases h; rfl

/-- C7. Tape invariant: starting from a fresh interpreter, for any program, any input
and any output writer, every cell holds a value in `0..255` after any number of
iterations of the loop of `Execute`, and in the state in which `Execute` returns. -/
theorem C7_tape_invariant (p : List Byte) (input : Reader) (out : Writer) :
    (∀ n, tapeOK (stateAfter n (loaded p input out))) ∧
    (∀ fuel err s1,
      Execute fuel (NewInterpreter (stringsReader p) input out) = Outcome.returned err s1 →
      tapeOK s1) := by
  have h0 : tapeOK (NewInterpreter (stringsReader p) input out) := by
    intro k; simp [NewInterpreter]
  constructor
  · intro n
    exact stateAfter_tapeOK n _ (tapeOK_of_tape_eq _ _ rfl h0)
  · intro fuel err s1 h
    unfold Execute at h
    split at h
    · cases h
    · rename_i i1 hload
      exact executeLoop_tapeOK fuel i1 err s1
        (tapeOK_of_tape_eq _ _ (readAllInstructions_tape _ _ _ hload) h0) h

theorem C7_tape_invariant_witness :
    tapeOK (stateAfter 3 (loaded (goString "-,+") (stringsReader [255]) bytesBuffer)) :=
  (C7_tape_invariant (goString "-,+") (stringsReader [255]) bytesBuffer).2 4 none _ rfl

set_option maxRecDepth 100000 in
/-- C9. End-to-end: executing the program
`+[----->+++<]>+.---.+++++++..+++.++++++++.--------.+++.------.--------.` on a fresh
interpreter with empty input terminates, returns no error and writes exactly the bytes
of `helloworld`. -/
theorem C9_helloworld :
    (Execute 3000 (NewInterpreter (stringsReader helloworldProgram) (stringsReader [])
      bytesBuffer)).output = some (none, goString "helloworld") := by
  decide!

/-- C10 fails: the program `<` run on a fresh interpreter moves the data pointer to -1,
outside the tape, and `Execute` returns no error. -/
theorem C10_counterexample :
    Execute 2 (NewInterpreter (stringsReader (goString "<")) (stringsReader []) bytesBuffer) =
      Outcome.returned none
        { loaded (goString "<") (stringsReader []) bytesBuffer with
          instructionPointer := 1, dataPointer := -1 } := by
  rfl

/-- C10, as the code has it: `>` and `<` move the data pointer by one without any range
check; as long as the move does not overflow the Go `int` (the data pointer is below
`maxInt` for `>`, above `minInt` for `<`), the iteration returns no error and goes on
with the next instruction, whatever the new data pointer is (also outside the tape), and
changes nothing else. -/
theorem C10_pointer_moves_unchecked (s : Interpreter) :
    (s.instructions[s.instructionPointer]? = some Right →
      minInt ≤ s.dataPointer ∧ s.dataPointer < maxInt →
      iteration s = Step.next { s with dataPointer := s.dataPointer + 1,
                                       instructionPointer := s.instructionPointer + 1 } ∧
      minInt ≤ s.dataPointer + 1 ∧ s.dataPointer + 1 ≤ maxInt) ∧
    (s.instructions[s.instructionPointer]? = some Left →
      minInt < s.dataPointer ∧ s.dataPointer ≤ maxInt →
      iteration s = Step.next { s with dataPointer := s.dataPointer - 1,
                                       instructionPointer := s.instructionPointer + 1 } ∧
      minInt ≤ s.dataPointer - 1 ∧ s.dataPointer - 1 ≤ maxInt) := by
  constructor
  · intro h hfit
    exact ⟨iteration_next s _ Right h (dispatch_Right s), by omega, by omega⟩
  · intro h hfit
    exact ⟨iteration_next s _ Left h (dispatch_Left s), by omega, by omega⟩

theorem C10_pointer_moves_unchecked_witness :
    (iteration lastCellState =
      Step.next { lastCellState with dataPointer := 29999 + 1, instructionPointer := 0 + 1 }) ∧
    (iteration firstCellState =
      Step.next { firstCellState with dataPointer := 0 - 1, instructionPointer := 0 + 1 }) :=
  ⟨((C10_pointer_moves_unchecked lastCellState).1 (by decide) (by decide)).1,
   ((C10_pointer_moves_unchecked firstCellState).2 (by decide) (by decide)).1⟩

/-! ## Removing the bytes that are not instructions -/

theorem isInstruction_false (c : Byte) (h : isInstruction c = false) :
    c ≠ Plus ∧ c ≠ Minus ∧ c ≠ Right ∧ c ≠ Left ∧ c ≠ PutChar ∧ c ≠ ReadChar ∧
      c ≠ JumpIfZero ∧ c ≠ JumpIfNotZero := by
  simp only [isInstruction, Bool.or_eq_false_iff, decide_eq_false_iff_not] at h
  tauto

theorem instrBefore_zero (p : List Byte) : instrBefore p 0 = 0 := by
  simp [instrBefore, strip]

theorem instrBefore_of_le (p : List Byte) (n : Nat) (h : p.length ≤ n) :
    instrBefore p n = (strip p).length := by
  simp [instrBefore, List.take_of_length_le h]

theorem take_succ_of_get (p : List Byte) (n : Nat) (c : Byte) (h : p[n]? = some c) :
    p.take (n + 1) = p.take n ++ [c] := by
  rw [List.take_succ, h]; rfl

theorem instrBefore_succ_instr (p : List Byte) (n : Nat) (c : Byte) (h : p[n]? = some c)
    (hc : isInstruction c = true) : instrBefore p (n + 1) = instrBefore p n + 1 := by
  simp [instrBefore, strip, take_succ_of_get p n c h, List.filter_append, hc]

theorem instrBefore_succ_other (p : List Byte) (n : Nat) (c : Byte) (h : p[n]? = some c)
    (hc : isInstruction c = false) : instrBefore p (n + 1) = instrBefore p n := by
  simp [instrBefore, strip, take_succ_of_get p n c h, List.filter_append, hc]

theorem strip_get (p : List Byte) (n : Nat) (c : Byte) (h : p[n]? = some c)
    (hc : isInstruction c = true) : (strip p)[instrBefore p n]? = some c := by
  have hlt : n < p.length := (List.getElem?_eq_some_iff.mp h).1
  have hget : p[n] = c := (List.getElem?_eq_some_iff.mp h).2
  have hsplit : p = p.take n ++ c :: p.drop (n + 1) := by
    rw [← hget, ← List.drop_eq_getElem_cons hlt, List.take_append_drop]
  have hstrip : strip p = strip (p.take n) ++ c :: strip (p.drop (n + 1)) := by
    conv_lhs => rw [hsplit]
    simp [strip, List.filter_append, hc]
  rw [hstrip, instrBefore, List.getElem?_append_right (le_refl _)]
  simp

theorem instrBefore_le (p : List Byte) (n : Nat) : instrBefore p n ≤ (strip p).length := by
  unfold instrBefore strip
  have := (List.take_sublist n p).filter isInstruction
  exact this.length_le

theorem instrBefore_lt (p : List Byte) (n : Nat) (c : Byte) (h : p[n]? = some c)
    (hc : isInstruction c = true) : instrBefore p n < (strip p).length := by
  have := strip_get p n c h hc
  exact (List.getElem?_eq_some_iff.mp this).1

theorem scanForward_succ (ins : List Byte) (fuel ip d : Nat) (c : Byte)
    (h : ins[ip + 1]? = some c) :
    scanForward ins (fuel + 1) ip (d + 1) =
      if c = JumpIfZero then scanForward ins fuel (ip + 1) (d + 1 + 1)
      else if c = JumpIfNotZero then scanForward ins fuel (ip + 1) d
      else scanForward ins fuel (ip + 1) (d + 1) := by
  simp only [scanForward, h]

theorem scanForward_none (ins : List Byte) (fuel ip d : Nat) (h : ins[ip + 1]? = none) :
    scanForward ins fuel ip (d + 1) = none := by
  cases fuel <;> simp [scanForward, h]

theorem scanBackward_succ (ins : List Byte) (ip d : Nat) (c : Byte) (h : ins[ip]? = some c) :
    scanBackward ins (ip + 1) (d + 1) =
      if c = JumpIfNotZero then scanBackward ins ip (d + 1 + 1)
      else if c = JumpIfZero then scanBackward ins ip d
      else scanBackward ins ip (d + 1) := by
  simp only [scanBackward, h]

theorem scanForward_strip (p : List Byte) :
    ∀ (fuel ip d ip1 fuel1 : Nat), ip1 + 1 = instrBefore p (ip + 1) → ip < p.length →
      p.length - ip ≤ fuel → (strip p).length - ip1 ≤ fuel1 →
      (∀ j, scanForward p fuel ip d = some j →
        j < p.length ∧ ∃ j1, scanForward (strip p) fuel1 ip1 d = some j1 ∧
          j1 + 1 = instrBefore p (j + 1)) ∧
      (scanForward p fuel ip d = none → scanForward (strip p) fuel1 ip1 d = none) := by
  intro fuel
  induction fuel with
  | zero => intro ip d ip1 fuel1 _ hlt hfuel _; omega
  | succ fuel ih =>
    intro ip d ip1 fuel1 hrel hlt hfuel hfuel1
    cases d with
    | zero =>
      rw [scanForward_zero, scanForward_zero]
      refine ⟨fun j hj => ?_, fun h => by cases h⟩
      cases hj
      exact ⟨hlt, ip1, rfl, hrel⟩
    | succ d =>
      cases hc : p[ip + 1]? with
      | none =>
        have hge : p.length ≤ ip + 1 := by
          by_contra hcon
          rw [List.getElem?_eq_getElem (by omega)] at hc
          cases hc
        have hnone : (strip p)[ip1 + 1]? = none := by
          apply List.getElem?_eq_none
          rw [hrel, instrBefore_of_le p _ hge]
        rw [scanForward_none p _ ip d hc, scanForward_none _ _ ip1 d hnone]
        exact ⟨fun j hj => (by cases hj), fun _ => rfl⟩
      | some c =>
        have hlt1 : ip + 1 < p.length := (List.getElem?_eq_some_iff.mp hc).1
        rw [scanForward_succ p fuel ip d c hc]
        cases hins : isInstruction c with
        | false =>
          obtain ⟨_, _, _, _, _, _, h7, h8⟩ := isInstruction_false c hins
          simp only [h7, h8, if_false]
          exact ih (ip + 1) (d + 1) ip1 fuel1
            (by rw [instrBefore_succ_other p (ip + 1) c hc hins]; exact hrel)
            hlt1 (by omega) hfuel1
        | true =>
          have hget : (strip p)[ip1 + 1]? = some c := by
            rw [hrel]; exact strip_get p (ip + 1) c hc hins
          have hlen1 : ip1 + 1 < (strip p).length := (List.getElem?_eq_some_iff.mp hget).1
          obtain ⟨f1, rfl⟩ : ∃ f1, fuel1 = f1 + 1 := ⟨fuel1 - 1, by omega⟩
          rw [scanForward_succ (strip p) f1 ip1 d c hget]
          have hrel1 : ip1 + 1 + 1 = instrBefore p (ip + 1 + 1) := by
            rw [instrBefore_succ_instr p (ip + 1) c hc hins, hrel]
          split_ifs
          · exact ih (ip + 1) (d + 1 + 1) (ip1 + 1) f1 hrel1 hlt1 (by omega) (by omega)
          · exact ih (ip + 1) d (ip1 + 1) f1 hrel1 hlt1 (by omega) (by omega)
          · exact ih (ip + 1) (d + 1) (ip1 + 1) f1 hrel1 hlt1 (by omega) (by omega)

theorem scanBackward_strip (p : List Byte) :
    ∀ (ip d : Nat), ip ≤ p.length →
      (∀ j, scanBackward p ip (d + 1) = some j →
        j < ip ∧ scanBackward (strip p) (instrBefore p ip) (d + 1) = some (instrBefore p j) ∧
          instrBefore p (j + 1) = instrBefore p j + 1) ∧
      (scanBackward p ip (d + 1) = none →
        scanBackward (strip p) (instrBefore p ip) (d + 1) = none) := by
  intro ip
  induction ip with
  | zero =>
    intro d _
    rw [instrBefore_zero]
    exact ⟨fun j hj => (by simp [scanBackward] at hj), fun _ => rfl⟩
  | succ n ih =>
    intro d hle
    have hlt : n < p.length := by omega
    have hc : p[n]? = some p[n] := List.getElem?_eq_getElem hlt
    generalize p[n] = c at hc
    rw [scanBackward_succ p n d c hc]
    cases hins : isInstruction c with
    | false =>
      obtain ⟨_, _, _, _, _, _, h7, h8⟩ := isInstruction_false c hins
      simp only [h7, h8, if_false]
      rw [instrBefore_succ_other p n c hc hins]
      obtain ⟨ih1, ih2⟩ := ih d (by omega)
      exact ⟨fun j hj => ⟨(by have := (ih1 j hj).1; omega), (ih1 j hj).2⟩, ih2⟩
    | true =>
      have hget := strip_get p n c hc hins
      have hsucc := instrBefore_succ_instr p n c hc hins
      rw [hsucc, scanBackward_succ (strip p) (instrBefore p n) d c hget]
      split_ifs with h1 h2
      · obtain ⟨ih1, ih2⟩ := ih (d + 1) (by omega)
        exact ⟨fun j hj => ⟨(by have := (ih1 j hj).1; omega), (ih1 j hj).2⟩, ih2⟩
      · cases d with
        | zero =>
          rw [scanBackward_zero, scanBackward_zero]
          refine ⟨fun j hj => ?_, fun h => by cases h⟩
          cases hj
          exact ⟨(by omega), rfl, hsucc⟩
        | succ d =>
          obtain ⟨ih1, ih2⟩ := ih d (by omega)
          exact ⟨fun j hj => ⟨(by have := (ih1 j hj).1; omega), (ih1 j hj).2⟩, ih2⟩
      · obtain ⟨ih1, ih2⟩ := ih d (by omega)
        exact ⟨fun j hj => ⟨(by have := (ih1 j hj).1; omega), (ih1 j hj).2⟩, ih2⟩

theorem retarget_of_sameData (s t : Interpreter) (h : sameData s t) : t = retarget t s := by
  obtain ⟨h1, h2, h3, h4⟩ := h
  cases s; cases t
  simp only [retarget] at *
  subst h1 h2 h3 h4
  rfl

theorem sameData_retarget (u s : Interpreter) : sameData s (retarget u s) :=
  ⟨rfl, rfl, rfl, rfl⟩

theorem readChar_retarget (u s : Interpreter) :
    readChar (retarget u s) = (readChar s).map (retarget u) := by
  unfold readChar
  simp only [retarget, Reader.Read]
  split
  · rfl
  · split
    · rfl
    · simp only [Interpreter.cell]
      split_ifs <;> rfl

theorem putChar_retarget (u s : Interpreter) :
    putChar (retarget u s) = (putChar s).map (retarget u) := by
  unfold putChar
  have hcell : (retarget u s).cell = s.cell := rfl
  rw [hcell]
  cases s.cell with
  | none => rfl
  | some v =>
    simp only [Writer.Write, retarget]
    cases (s.output.results s.output.calls).err with
    | some e => rfl
    | none =>
      simp only
      cases (s.output.results s.output.calls).accepted <;> rfl

theorem dispatch_retarget (u s : Interpreter) (c : Byte) (h7 : c ≠ JumpIfZero)
    (h8 : c ≠ JumpIfNotZero) :
    dispatch (retarget u s) c = (dispatch s c).map (retarget u) := by
  unfold dispatch
  simp only [h7, h8, if_false]
  split_ifs
  · simp only [retarget, Interpreter.cell]; split_ifs <;> rfl
  · simp only [retarget, Interpreter.cell]; split_ifs <;> rfl
  · rfl
  · rfl
  · exact readChar_retarget u s
  · exact putChar_retarget u s
  · rfl

theorem dispatch_keeps_program (s s1 : Interpreter) (c : Byte) (h7 : c ≠ JumpIfZero)
    (h8 : c ≠ JumpIfNotZero) (h : dispatch s c = Step.next s1) :
    s1.instructions = s.instructions ∧ s1.instructionPointer = s.instructionPointer := by
  have h1 := dispatch_retarget s s c h7 h8
  have h2 : retarget s s = s := rfl
  rw [h2, h] at h1
  simp only [Step.map, Step.next.injEq] at h1
  rw [h1]
  exact ⟨rfl, rfl⟩

theorem cell_eq_of_sameData (s t : Interpreter) (h : sameData s t) : t.cell = s.cell := by
  obtain ⟨h1, h2, _, _⟩ := h
  simp only [Interpreter.cell, h1, h2]

theorem dispatch_JumpIfZero_panic (s : Interpreter) (h : s.cell = none) :
    dispatch s JumpIfZero = Step.panic := by
  rw [dispatch_JumpIfZero]; simp only [h]

theorem dispatch_JumpIfZero_skip (s : Interpreter) (v : Int) (h : s.cell = some v)
    (hv : v ≠ 0) : dispatch s JumpIfZero = Step.next s := by
  rw [dispatch_JumpIfZero]; simp only [h, hv, if_false]

theorem dispatch_JumpIfZero_jump (s : Interpreter) (j : Nat) (h : s.cell = some 0)
    (hscan : scanForward s.instructions (s.instructions.length - s.instructionPointer)
      s.instructionPointer 1 = some j) :
    dispatch s JumpIfZero = Step.next { s with instructionPointer := j } := by
  rw [dispatch_JumpIfZero]; simp only [h, if_true, hscan]

theorem dispatch_JumpIfZero_jump_panic (s : Interpreter) (h : s.cell = some 0)
    (hscan : scanForward s.instructions (s.instructions.length - s.instructionPointer)
      s.instructionPointer 1 = none) :
    dispatch s JumpIfZero = Step.panic := by
  rw [dispatch_JumpIfZero]; simp only [h, if_true, hscan]

theorem dispatch_JumpIfNotZero_panic (s : Interpreter) (h : s.cell = none) :
    dispatch s JumpIfNotZero = Step.panic := by
  rw [dispatch_JumpIfNotZero]; simp only [h]

theorem dispatch_JumpIfNotZero_skip (s : Interpreter) (h : s.cell = some 0) :
    dispatch s JumpIfNotZero = Step.next s := by
  rw [dispatch_JumpIfNotZero]; simp only [h, ne_eq, not_true_eq_false, if_false]

theorem dispatch_JumpIfNotZero_jump (s : Interpreter) (v : Int) (j : Nat)
    (h : s.cell = some v) (hv : v ≠ 0)
    (hscan : scanBackward s.instructions s.instructionPointer 1 = some j) :
    dispatch s JumpIfNotZero = Step.next { s with instructionPointer := j } := by
  rw [dispatch_JumpIfNotZero]; simp only [h, ne_eq, hv, not_false_eq_true, if_true, hscan]

theorem dispatch_JumpIfNotZero_jump_panic (s : Interpreter) (v : Int)
    (h : s.cell = some v) (hv : v ≠ 0)
    (hscan : scanBackward s.instructions s.instructionPointer 1 = none) :
    dispatch s JumpIfNotZero = Step.panic := by
  rw [dispatch_JumpIfNotZero]; simp only [h, ne_eq, hv, not_false_eq_true, if_true, hscan]

theorem iteration_sim_other (p : List Byte) (s t : Interpreter) (c : Byte) (h : Sim p s t)
    (hc : p[s.instructionPointer]? = some c) (hins : isInstruction c = false) :
    iteration s = Step.next s.advance ∧ Sim p s.advance t := by
  obtain ⟨h1, h2, h3, h4, h5⟩ := h
  obtain ⟨n1, n2, n3, n4, n5, n6, n7, n8⟩ := isInstruction_false c hins
  have hlt : s.instructionPointer < p.length := (List.getElem?_eq_some_iff.mp hc).1
  refine ⟨iteration_next s s c (by rw [h1]; exact hc)
    (dispatch_other s c n1 n2 n3 n4 n6 n5 n7 n8), h1, h2, ?_, ?_, h5⟩
  · rw [h3]
    exact (instrBefore_succ_other p _ c hc hins).symm
  · exact hlt

theorem sim_advance (p : List Byte) (s t s1 t1 : Interpreter) (c : Byte) (h : Sim p s t)
    (hc : p[s.instructionPointer]? = some c) (hins : isInstruction c = true)
    (hs1 : s1.instructions = s.instructions ∧ s1.instructionPointer = s.instructionPointer)
    (ht1 : t1.instructions = t.instructions ∧ t1.instructionPointer = t.instructionPointer)
    (hd : sameData s1 t1) : Sim p s1.advance t1.advance := by
  obtain ⟨h1, h2, h3, h4, _⟩ := h
  have hlt : s.instructionPointer < p.length := (List.getElem?_eq_some_iff.mp hc).1
  refine ⟨by rw [← h1, ← hs1.1]; rfl, by rw [← h2, ← ht1.1]; rfl, ?_, ?_, hd⟩
  · show t1.instructionPointer + 1 = instrBefore p (s1.instructionPointer + 1)
    rw [ht1.2, hs1.2, h3, instrBefore_succ_instr p _ c hc hins]
  · show s1.instructionPointer + 1 ≤ p.length
    rw [hs1.2]; exact hlt

theorem iteration_sim_plain (p : List Byte) (s t : Interpreter) (c : Byte) (h : Sim p s t)
    (hc : p[s.instructionPointer]? = some c) (hins : isInstruction c = true)
    (h7 : c ≠ JumpIfZero) (h8 : c ≠ JumpIfNotZero) :
    StepSim p (iteration s) (iteration t) := by
  have hsc : s.instructions[s.instructionPointer]? = some c := by rw [h.1]; exact hc
  have htc : t.instructions[t.instructionPointer]? = some c := by
    rw [h.2.1, h.2.2.1]; exact strip_get p _ c hc hins
  have hd : dispatch t c = (dispatch s c).map (retarget t) := by
    conv_lhs => rw [retarget_of_sameData s t h.2.2.2.2]
    exact dispatch_retarget t s c h7 h8
  cases hs : dispatch s c with
  | next s1 =>
    rw [hs] at hd
    rw [iteration_next s s1 c hsc hs, iteration_next t _ c htc hd]
    exact sim_advance p s t s1 (retarget t s1) c h hc hins
      (dispatch_keeps_program s s1 c h7 h8 hs) ⟨rfl, rfl⟩ (sameData_retarget t s1)
  | ret e s1 =>
    rw [hs] at hd
    rw [iteration_ret s s1 c e hsc hs, iteration_ret t _ c e htc hd]
    exact ⟨rfl, sameData_retarget t s1⟩
  | panic =>
    rw [hs] at hd
    rw [iteration_panic s c hsc hs, iteration_panic t c htc hd]
    trivial

theorem iteration_sim_open (p : List Byte) (s t : Interpreter) (h : Sim p s t)
    (hc : p[s.instructionPointer]? = some JumpIfZero) :
    StepSim p (iteration s) (iteration t) := by
  have hins : isInstruction JumpIfZero = true := by decide
  have hsc : s.instructions[s.instructionPointer]? = some JumpIfZero := by rw [h.1]; exact hc
  have htc : t.instructions[t.instructionPointer]? = some JumpIfZero := by
    rw [h.2.1, h.2.2.1]; exact strip_get p _ _ hc hins
  have hlt : s.instructionPointer < p.length := (List.getElem?_eq_some_iff.mp hc).1
  have hcell := cell_eq_of_sameData s t h.2.2.2.2
  cases hv : s.cell with
  | none =>
    rw [iteration_panic s _ hsc (dispatch_JumpIfZero_panic s hv),
      iteration_panic t _ htc (dispatch_JumpIfZero_panic t (by rw [hcell, hv]))]
    trivial
  | some v =>
    by_cases hz : v = 0
    · subst hz
      obtain ⟨hfound, hnone⟩ := scanForward_strip p (p.length - s.instructionPointer)
        s.instructionPointer 1 t.instructionPointer
        ((strip p).length - t.instructionPointer)
        (by rw [h.2.2.1, instrBefore_succ_instr p _ _ hc hins]) hlt (le_refl _) (le_refl _)
      cases hscan : scanForward p (p.length - s.instructionPointer) s.instructionPointer 1 with
      | none =>
        rw [iteration_panic s _ hsc (dispatch_JumpIfZero_jump_panic s hv
            (by rw [h.1]; exact hscan)),
          iteration_panic t _ htc (dispatch_JumpIfZero_jump_panic t (by rw [hcell, hv])
            (by rw [h.2.1]; exact hnone hscan))]
        trivial
      | some j =>
        obtain ⟨hj, j1, hj1, hrel⟩ := hfound j hscan
        rw [iteration_next s _ _ hsc (dispatch_JumpIfZero_jump s j hv
            (by rw [h.1]; exact hscan)),
          iteration_next t _ _ htc (dispatch_JumpIfZero_jump t j1 (by rw [hcell, hv])
            (by rw [h.2.1]; exact hj1))]
        exact ⟨h.1, h.2.1, hrel, hj, h.2.2.2.2⟩
    · rw [iteration_next s _ _ hsc (dispatch_JumpIfZero_skip s v hv hz),
        iteration_next t _ _ htc (dispatch_JumpIfZero_skip t v (by rw [hcell, hv]) hz)]
      exact sim_advance p s t s t _ h hc hins ⟨rfl, rfl⟩ ⟨rfl, rfl⟩ h.2.2.2.2

theorem iteration_sim_close (p : List Byte) (s t : Interpreter) (h : Sim p s t)
    (hc : p[s.instructionPointer]? = some JumpIfNotZero) :
    StepSim p (iteration s) (iteration t) := by
  have hins : isInstruction JumpIfNotZero = true := by decide
  have hsc : s.instructions[s.instructionPointer]? = some JumpIfNotZero := by
    rw [h.1]; exact hc
  have htc : t.instructions[t.instructionPointer]? = some JumpIfNotZero := by
    rw [h.2.1, h.2.2.1]; exact strip_get p _ _ hc hins
  have hlt : s.instructionPointer < p.length := (List.getElem?_eq_some_iff.mp hc).1
  have hcell := cell_eq_of_sameData s t h.2.2.2.2
  cases hv : s.cell with
  | none =>
    rw [iteration_panic s _ hsc (dispatch_JumpIfNotZero_panic s hv),
      iteration_panic t _ htc (dispatch_JumpIfNotZero_panic t (by rw [hcell, hv]))]
    trivial
  | some v =>
    by_cases hz : v = 0
    · subst hz
      rw [iteration_next s _ _ hsc (dispatch_JumpIfNotZero_skip s hv),
        iteration_next t _ _ htc (dispatch_JumpIfNotZero_skip t (by rw [hcell, hv]))]
      exact sim_advance p s t s t _ h hc hins ⟨rfl, rfl⟩ ⟨rfl, rfl⟩ h.2.2.2.2
    · obtain ⟨hfound, hnone⟩ := scanBackward_strip p s.instructionPointer 0 h.2.2.2.1
      cases hscan : scanBackward p s.instructionPointer 1 with
      | none =>
        rw [iteration_panic s _ hsc (dispatch_JumpIfNotZero_jump_panic s v hv hz
            (by rw [h.1]; exact hscan)),
          iteration_panic t _ htc (dispatch_JumpIfNotZero_jump_panic t v (by rw [hcell, hv]) hz
            (by rw [h.2.1, h.2.2.1]; exact hnone hscan))]
        trivial
      | some j =>
        obtain ⟨hj, hj1, hrel⟩ := hfound j hscan
        rw [iteration_next s _ _ hsc (dispatch_JumpIfNotZero_jump s v j hv hz
            (by rw [h.1]; exact hscan)),
          iteration_next t _ _ htc (dispatch_JumpIfNotZero_jump t v _ (by rw [hcell, hv]) hz
            (by rw [h.2.1, h.2.2.1]; exact hj1))]
        exact ⟨h.1, h.2.1, hrel.symm, by show j + 1 ≤ p.length; omega, h.2.2.2.2⟩

theorem iteration_sim_instr (p : List Byte) (s t : Interpreter) (c : Byte) (h : Sim p s t)
    (hc : p[s.instructionPointer]? = some c) (hins : isInstruction c = true) :
    StepSim p (iteration s) (iteration t) := by
  by_cases h7 : c = JumpIfZero
  · subst h7; exact iteration_sim_open p s t h hc
  · by_cases h8 : c = JumpIfNotZero
    · subst h8; exact iteration_sim_close p s t h hc
    · exact iteration_sim_plain p s t c h hc hins h7 h8

theorem same_timeout_right (o : Outcome) (h : o.same Outcome.timeout) : o = Outcome.timeout := by
  cases h; rfl

theorem same_timeout_left (o : Outcome) (h : Outcome.timeout.same o) : o = Outcome.timeout := by
  cases h; rfl

theorem sim_done (p : List Byte) (s t : Interpreter) (h : Sim p s t)
    (hs : ¬ s.instructionPointer < s.instructions.length) :
    ¬ t.instructionPointer < t.instructions.length := by
  obtain ⟨h1, h2, h3, _, _⟩ := h
  rw [h2, h3, instrBefore_of_le p _ (by rw [h1] at hs; omega)]
  omega

theorem executeLoop_sim (p : List Byte) : ∀ (fuel : Nat) (s t : Interpreter), Sim p s t →
    executeLoop fuel s ≠ Outcome.timeout →
    (executeLoop fuel s).same (executeLoop fuel t) := by
  intro fuel
  induction fuel with
  | zero =>
    intro s t h hne
    by_cases hlt : s.instructionPointer < s.instructions.length
    · exact absurd (executeLoop_timeout s hlt) hne
    · rw [executeLoop_done _ s hlt, executeLoop_done _ t (sim_done p s t h hlt)]
      exact Outcome.same.returned _ _ _ h.2.2.2.2
  | succ fuel ih =>
    intro s t h hne
    by_cases hlt : s.instructionPointer < s.instructions.length
    · obtain ⟨c, hc⟩ := exists_get_some p s.instructionPointer (by rw [← h.1]; exact hlt)
      cases hins : isInstruction c with
      | false =>
        obtain ⟨hstep, hsim⟩ := iteration_sim_other p s t c h hc hins
        rw [executeLoop_step _ s _ hlt hstep] at hne ⊢
        have := ih s.advance t hsim hne
        have hnt : executeLoop fuel t ≠ Outcome.timeout := by
          intro hcon
          rw [hcon] at this
          exact hne (same_timeout_right _ this)
        rw [executeLoop_fuel_succ fuel t hnt]
        exact this
      | true =>
        have hsim := iteration_sim_instr p s t c h hc hins
        have htlt : t.instructionPointer < t.instructions.length := by
          rw [h.2.1, h.2.2.1]; exact instrBefore_lt p _ c hc hins
        cases hs : iteration s with
        | next s1 =>
          cases ht : iteration t with
          | next t1 =>
            rw [hs, ht] at hsim
            rw [executeLoop_step _ s s1 hlt hs] at hne ⊢
            rw [executeLoop_step _ t t1 htlt ht]
            exact ih s1 t1 hsim hne
          | ret e t1 => rw [hs, ht] at hsim; exact absurd hsim (by simp [StepSim])
          | panic => rw [hs, ht] at hsim; exact absurd hsim (by simp [StepSim])
        | ret e s1 =>
          cases ht : iteration t with
          | next t1 => rw [hs, ht] at hsim; exact absurd hsim (by simp [StepSim])
          | ret e1 t1 =>
            rw [hs, ht] at hsim
            rw [executeLoop_ret _ s s1 e hlt hs, executeLoop_ret _ t t1 e1 htlt ht]
            obtain ⟨he, hd⟩ := hsim
            subst he
            exact Outcome.same.returned _ _ _ hd
          | panic => rw [hs, ht] at hsim; exact absurd hsim (by simp [StepSim])
        | panic =>
          cases ht : iteration t with
          | next t1 => rw [hs, ht] at hsim; exact absurd hsim (by simp [StepSim])
          | ret e1 t1 => rw [hs, ht] at hsim; exact absurd hsim (by simp [StepSim])
          | panic =>
            rw [executeLoop_panic _ s hlt hs, executeLoop_panic _ t htlt ht]
            exact Outcome.same.panicked
    · rw [executeLoop_done _ s hlt, executeLoop_done _ t (sim_done p s t h hlt)]
      exact Outcome.same.returned _ _ _ h.2.2.2.2

theorem executeLoop_sim_back (p : List Byte) : ∀ (fuel m : Nat) (s t : Interpreter),
    Sim p s t → p.length - s.instructionPointer ≤ m →
    executeLoop fuel t ≠ Outcome.timeout →
    ∃ fuel1, (executeLoop fuel1 s).same (executeLoop fuel t) := by
  intro fuel
  induction fuel with
  | zero =>
    intro m
    induction m with
    | zero =>
      intro s t h hm _
      have hlt : ¬ s.instructionPointer < s.instructions.length := by rw [h.1]; omega
      refine ⟨0, ?_⟩
      rw [executeLoop_done _ s hlt, executeLoop_done _ t (sim_done p s t h hlt)]
      exact Outcome.same.returned _ _ _ h.2.2.2.2
    | succ m ihm =>
      intro s t h hm hne
      by_cases hlt : s.instructionPointer < s.instructions.length
      · obtain ⟨c, hc⟩ := exists_get_some p s.instructionPointer (by rw [← h.1]; exact hlt)
        cases hins : isInstruction c with
        | false =>
          obtain ⟨hstep, hsim⟩ := iteration_sim_other p s t c h hc hins
          obtain ⟨fuel1, hf⟩ := ihm s.advance t hsim
            (by show p.length - (s.instructionPointer + 1) ≤ m; omega) hne
          exact ⟨fuel1 + 1, by rw [executeLoop_step _ s _ hlt hstep]; exact hf⟩
        | true =>
          have htlt : t.instructionPointer < t.instructions.length := by
            rw [h.2.1, h.2.2.1]; exact instrBefore_lt p _ c hc hins
          exact absurd (executeLoop_timeout t htlt) hne
      · refine ⟨0, ?_⟩
        rw [executeLoop_done _ s hlt, executeLoop_done _ t (sim_done p s t h hlt)]
        exact Outcome.same.returned _ _ _ h.2.2.2.2
  | succ fuel ih =>
    intro m
    induction m with
    | zero =>
      intro s t h hm _
      have hlt : ¬ s.instructionPointer < s.instructions.length := by rw [h.1]; omega
      refine ⟨0, ?_⟩
      rw [executeLoop_done _ s hlt, executeLoop_done _ t (sim_done p s t h hlt)]
      exact Outcome.same.returned _ _ _ h.2.2.2.2
    | succ m ihm =>
      intro s t h hm hne
      by_cases hlt : s.instructionPointer < s.instructions.length
      · obtain ⟨c, hc⟩ := exists_get_some p s.instructionPointer (by rw [← h.1]; exact hlt)
        cases hins : isInstruction c with
        | false =>
          obtain ⟨hstep, hsim⟩ := iteration_sim_other p s t c h hc hins
          obtain ⟨fuel1, hf⟩ := ihm s.advance t hsim
            (by show p.length - (s.instructionPointer + 1) ≤ m; omega) hne
          exact ⟨fuel1 + 1, by rw [executeLoop_step _ s _ hlt hstep]; exact hf⟩
        | true =>
          have hsim := iteration_sim_instr p s t c h hc hins
          have htlt : t.instructionPointer < t.instructions.length := by
            rw [h.2.1, h.2.2.1]; exact instrBefore_lt p _ c hc hins
          cases hs : iteration s with
          | next s1 =>
            cases ht : iteration t with
            | next t1 =>
              rw [hs, ht] at hsim
              rw [executeLoop_step _ t t1 htlt ht] at hne ⊢
              obtain ⟨fuel1, hf⟩ := ih (p.length - s1.instructionPointer) s1 t1 hsim
                (le_refl _) hne
              exact ⟨fuel1 + 1, by rw [executeLoop_step _ s s1 hlt hs]; exact hf⟩
            | ret e t1 => rw [hs, ht] at hsim; exact absurd hsim (by simp [StepSim])
            | panic => rw [hs, ht] at hsim; exact absurd hsim (by simp [StepSim])
          | ret e s1 =>
            cases ht : iteration t with
            | next t1 => rw [hs, ht] at hsim; exact absurd hsim (by simp [StepSim])
            | ret e1 t1 =>
              rw [hs, ht] at hsim
              refine ⟨1, ?_⟩
              rw [executeLoop_ret _ s s1 e hlt hs, executeLoop_ret _ t t1 e1 htlt ht]
              obtain ⟨he, hd⟩ := hsim
              subst he
              exact Outcome.same.returned _ _ _ hd
            | panic => rw [hs, ht] at hsim; exact absurd hsim (by simp [StepSim])
          | panic =>
            cases ht : iteration t with
            | next t1 => rw [hs, ht] at hsim; exact absurd hsim (by simp [StepSim])
            | ret e1 t1 => rw [hs, ht] at hsim; exact absurd hsim (by simp [StepSim])
            | panic =>
              refine ⟨1, ?_⟩
              rw [executeLoop_panic _ s hlt hs, executeLoop_panic _ t htlt ht]
              exact Outcome.same.panicked
      · refine ⟨0, ?_⟩
        rw [executeLoop_done _ s hlt, executeLoop_done _ t (sim_done p s t h hlt)]
        exact Outcome.same.returned _ _ _ h.2.2.2.2

theorem strip_length_le (p : List Byte) : (strip p).length ≤ p.length :=
  List.length_filter_le _ _

theorem sim_loaded (p : List Byte) (input : Reader) (out : Writer) :
    Sim p (loaded p input out) (loaded (strip p) input out) :=
  ⟨rfl, rfl, (instrBefore_zero p).symm, Nat.zero_le _, rfl, rfl, rfl, rfl⟩

/-- C8. Comment pass-through: executing a program `p` and executing `p` with every byte
outside the eight instructions removed give the same result.  Whenever one of the two
runs ends (returns or panics) within some number of iterations, so does the other, with
the same returned error, the same tape, data pointer and output (and input) or the same
panic; and one run goes on for ever exactly when the other does. -/
theorem C8_comment_pass_through (p : List Byte) (input : Reader) (out : Writer) :
    (∀ fuel, Execute fuel (NewInterpreter (stringsReader p) input out) ≠ Outcome.timeout →
      (Execute fuel (NewInterpreter (stringsReader p) input out)).same
        (Execute fuel (NewInterpreter (stringsReader (strip p)) input out))) ∧
    (∀ fuel,
      Execute fuel (NewInterpreter (stringsReader (strip p)) input out) ≠ Outcome.timeout →
      ∃ fuel1, (Execute fuel1 (NewInterpreter (stringsReader p) input out)).same
        (Execute fuel (NewInterpreter (stringsReader (strip p)) input out))) ∧
    ((∀ fuel, Execute fuel (NewInterpreter (stringsReader p) input out) = Outcome.timeout) ↔
      (∀ fuel, Execute fuel (NewInterpreter (stringsReader (strip p)) input out)
        = Outcome.timeout)) := by
  have hfwd : ∀ fuel, Execute fuel (NewInterpreter (stringsReader p) input out)
        ≠ Outcome.timeout →
      (Execute fuel (NewInterpreter (stringsReader p) input out)).same
        (Execute fuel (NewInterpreter (stringsReader (strip p)) input out)) := by
    intro fuel hne
    have hf : p.length < fuel := by
      by_contra hcon
      exact hne (Execute_new_short p input out fuel (by omega))
    have hf1 : (strip p).length < fuel := lt_of_le_of_lt (strip_length_le p) hf
    rw [Execute_new p input out fuel hf] at hne ⊢
    rw [Execute_new (strip p) input out fuel hf1]
    exact executeLoop_sim p fuel _ _ (sim_loaded p input out) hne
  have hbwd : ∀ fuel,
      Execute fuel (NewInterpreter (stringsReader (strip p)) input out) ≠ Outcome.timeout →
      ∃ fuel1, (Execute fuel1 (NewInterpreter (stringsReader p) input out)).same
        (Execute fuel (NewInterpreter (stringsReader (strip p)) input out)) := by
    intro fuel hne
    have hf1 : (strip p).length < fuel := by
      by_contra hcon
      exact hne (Execute_new_short (strip p) input out fuel (by omega))
    rw [Execute_new (strip p) input out fuel hf1] at hne ⊢
    obtain ⟨fuel1, h1⟩ := executeLoop_sim_back p fuel p.length _ _ (sim_loaded p input out)
      (Nat.sub_le _ _) hne
    have hnt : executeLoop fuel1 (loaded p input out) ≠ Outcome.timeout := by
      intro hcon
      rw [hcon] at h1
      exact hne (same_timeout_left _ h1)
    refine ⟨fuel1 + (p.length + 1), ?_⟩
    rw [Execute_new p input out _ (by omega), executeLoop_fuel_add fuel1 _ hnt]
    exact h1
  refine ⟨hfwd, hbwd, ?_, ?_⟩
  · intro hall fuel
    by_contra hne
    obtain ⟨fuel1, h1⟩ := hbwd fuel hne
    rw [hall fuel1] at h1
    exact hne (same_timeout_left _ h1)
  · intro hall fuel
    by_contra hne
    have h1 := hfwd fuel hne
    rw [hall fuel] at h1
    exact hne (same_timeout_right _ h1)

theorem C8_comment_pass_through_witness :
    (Execute 200 (NewInterpreter (stringsReader commentedProgram) (stringsReader [])
        bytesBuffer)).output = some (none, [1, 2]) ∧
    (Execute 200 (NewInterpreter (stringsReader commentedProgram) (stringsReader [])
        bytesBuffer)).same
      (Execute 200 (NewInterpreter (stringsReader (strip commentedProgram)) (stringsReader [])
        bytesBuffer)) := by
  have h2 : (Execute 200 (NewInterpreter (stringsReader commentedProgram) (stringsReader [])
      bytesBuffer)).output = some (none, [1, 2]) := by decide!
  refine ⟨h2, ?_⟩
  exact (C8_comment_pass_through commentedProgram (stringsReader []) bytesBuffer).1 200
    (fun h => by rw [h] at h2; cases h2)

/-! ## The input instruction -/

theorem readChar_error (s : Interpreter) (d : Option Byte) (e : Error)
    (h : s.input.results s.input.calls = { data := d, err := some e }) :
    readChar s = Step.ret e { s with input := { s.input with calls := s.input.calls + 1 } } := by
  simp only [readChar, Reader.Read, h]

theorem readChar_byte (s : Interpreter) (b : Byte)
    (hdp : 0 ≤ s.dataPointer ∧ s.dataPointer < tapeLen)
    (h : s.input.results s.input.calls = { data := some b, err := none }) :
    readChar s = Step.next
      { s with input := { s.input with calls := s.input.calls + 1 },
               tape := fun k => if k = s.dataPointer.toNat then (b.val : Int) else s.tape k } := by
  simp only [readChar, Reader.Read, h, Interpreter.cell, hdp, and_self, if_true,
    Interpreter.setCell]

/-- C11. Input instruction: in a state with the data pointer in range whose next
instruction is `,`: when the input is exhausted (the read gives no byte and `io.EOF`),
the iteration makes `Execute` return that error, with the tape and everything but the
reader unchanged; when the read gives a byte `b`, the iteration stores `b`, a value in
`0..255`, in the current cell, advances the reader by exactly one read, changes no other
cell and goes on with the next instruction. -/
theorem C11_input_instruction (s : Interpreter)
    (hins : s.instructions[s.instructionPointer]? = some ReadChar)
    (hdp : 0 ≤ s.dataPointer ∧ s.dataPointer < tapeLen) :
    (s.input.results s.input.calls = { data := none, err := some Error.EOF } →
      iteration s =
        Step.ret Error.EOF { s with input := { s.input with calls := s.input.calls + 1 } } ∧
      ∀ fuel, executeLoop (fuel + 1) s =
        Outcome.returned (some Error.EOF)
          { s with input := { s.input with calls := s.input.calls + 1 } }) ∧
    (∀ b : Byte, s.input.results s.input.calls = { data := some b, err := none } →
      iteration s = Step.next
        { s with input := { s.input with calls := s.input.calls + 1 },
                 tape := fun k => if k = s.dataPointer.toNat then (b.val : Int) else s.tape k,
                 instructionPointer := s.instructionPointer + 1 } ∧
      0 ≤ (b.val : Int) ∧ (b.val : Int) ≤ 255) := by
  have hlt : s.instructionPointer < s.instructions.length :=
    (List.getElem?_eq_some_iff.mp hins).1
  constructor
  · intro h
    have hit := iteration_ret s _ ReadChar Error.EOF hins
      (by rw [dispatch_ReadChar]; exact readChar_error s none Error.EOF h)
    exact ⟨hit, fun fuel => executeLoop_ret fuel s _ _ hlt hit⟩
  · intro b h
    refine ⟨?_, Int.ofNat_nonneg _, ?_⟩
    · exact iteration_next s _ ReadChar hins
        (by rw [dispatch_ReadChar]; exact readChar_byte s b hdp h)
    · have := b.isLt
      omega

theorem C11_input_instruction_witness :
    (iteration readEndState =
        Step.ret Error.EOF
          { readEndState with input := { readEndState.input with calls := 0 + 1 } }) ∧
    (iteration readState = Step.next
        { readState with input := { readState.input with calls := 0 + 1 },
                         tape := fun k => if k = 2 then 65 else readState.tape k,
                         instructionPointer := 0 + 1 }) :=
  ⟨((C11_input_instruction readEndState (by decide) (by decide)).1 (by decide)).1,
   ((C11_input_instruction readState (by decide) (by decide)).2 65 (by decide)).1⟩

/-! ## The output instruction -/

theorem putChar_accepted (s : Interpreter)
    (hdp : 0 ≤ s.dataPointer ∧ s.dataPointer < tapeLen)
    (h : s.output.results s.output.calls = { accepted := true, err := none }) :
    putChar s = Step.next
      { s with output :=
          { s.output with
            calls := s.output.calls + 1
            written := s.output.written ++
              [Fin.ofNat (s.tape s.dataPointer.toNat % 256).toNat] } } := by
  simp only [putChar, Interpreter.cell, hdp, and_self, if_true, Writer.Write, h]

theorem putChar_panic (s : Interpreter) (h : s.cell = none) : putChar s = Step.panic := by
  simp only [putChar, h]

theorem byte_of_cell (v : Int) (h0 : 0 ≤ v) (h1 : v ≤ 255) :
    (((Fin.ofNat (v % 256).toNat : Byte)).val : Int) = v := by
  have h2 : (v % 256).toNat < 256 := by omega
  simp only [Fin.ofNat, Fin.val_mk]
  omega

theorem iteration_all (P : Interpreter → Prop) (s : Interpreter) (c : Byte)
    (hc : s.instructions[s.instructionPointer]? = some c)
    (hd : (dispatch s c).All P) (hadv : ∀ x, P x → P x.advance) : (iteration s).All P := by
  cases h : dispatch s c with
  | next s1 =>
    rw [iteration_next s s1 c hc h]
    rw [h] at hd
    exact hadv s1 hd
  | ret e s1 =>
    rw [iteration_ret s s1 c e hc h]
    rw [h] at hd
    exact hd
  | panic =>
    rw [iteration_panic s c hc h]
    trivial

theorem readChar_output (s : Interpreter) :
    (readChar s).All (fun s1 => s1.output = s.output) := by
  unfold readChar
  simp only [Reader.Read]
  split
  · rfl
  · split
    · rfl
    · split
      · trivial
      · rfl

theorem dispatch_output_other (s : Interpreter) (c : Byte) (h : c ≠ PutChar) :
    (dispatch s c).All (fun s1 => s1.output = s.output) := by
  unfold dispatch
  simp only [h, if_false]
  split_ifs
  · split
    · trivial
    · rfl
  · split
    · trivial
    · rfl
  · rfl
  · rfl
  · exact readChar_output s
  · split
    · trivial
    · split_ifs
      · split
        · trivial
        · rfl
      · rfl
  · split
    · trivial
    · split_ifs
      · split
        · trivial
        · rfl
      · rfl
  · rfl

theorem iteration_written (s : Interpreter)
    (hacc : s.output.results s.output.calls = { accepted := true, err := none }) :
    (iteration s).All (fun s2 =>
      s2.output.results = s.output.results ∧
      s2.output.written.length = s.output.written.length +
        (if s.instructions[s.instructionPointer]? = some PutChar then 1 else 0)) := by
  cases hc : s.instructions[s.instructionPointer]? with
  | none => simp only [iteration, hc]; trivial
  | some c =>
    by_cases hp : c = PutChar
    · subst hp
      apply iteration_all _ s PutChar hc _ (fun x hx => hx)
      rw [dispatch_PutChar]
      cases hcell : s.cell with
      | none => rw [putChar_panic s hcell]; trivial
      | some v =>
        have hdp : 0 ≤ s.dataPointer ∧ s.dataPointer < tapeLen := by
          by_contra hcon
          simp [Interpreter.cell, hcon] at hcell
        rw [putChar_accepted s hdp hacc]
        simp [Step.All]
    · apply iteration_all _ s c hc _ (fun x hx => hx)
      have := dispatch_output_other s c hp
      have hne : ¬ (some c = some PutChar) := by simpa using hp
      cases hd : dispatch s c with
      | next s1 => rw [hd] at this; simp only [Step.All] at this ⊢; rw [this]; simp [hne]
      | ret e s1 => rw [hd] at this; simp only [Step.All] at this ⊢; rw [this]; simp [hne]
      | panic => trivial

theorem executeLoop_written : ∀ (fuel : Nat) (s : Interpreter) (err : Option Error)
    (s1 : Interpreter), (∀ k, s.output.results k = { accepted := true, err := none }) →
    executeLoop fuel s = Outcome.returned err s1 →
    s1.output.written.length = s.output.written.length + putCharsExecuted fuel s := by
  intro fuel
  induction fuel with
  | zero =>
    intro s err s1 _ h
    by_cases hlt : s.instructionPointer < s.instructions.length
    · rw [executeLoop_timeout s hlt] at h; cases h
    · rw [executeLoop_done 0 s hlt] at h
      cases h; rfl
  | succ fuel ih =>
    intro s err s1 hacc h
    by_cases hlt : s.instructionPointer < s.instructions.length
    · have hw := iteration_written s (hacc _)
      cases hstep : iteration s with
      | next s2 =>
        rw [hstep] at hw
        rw [executeLoop_step fuel s s2 hlt hstep] at h
        have := ih s2 err s1 (by intro k; rw [hw.1]; exact hacc k) h
        simp only [putCharsExecuted, hlt, if_true, hstep]
        rw [this, hw.2]
        omega
      | ret e s2 =>
        rw [hstep] at hw
        rw [executeLoop_ret fuel s s2 e hlt hstep] at h
        cases h
        simp only [putCharsExecuted, hlt, if_true, hstep]
        exact hw.2
      | panic =>
        rw [executeLoop_panic fuel s hlt hstep] at h; cases h
    · rw [executeLoop_done _ s hlt] at h
      cases h
      simp [putCharsExecuted, hlt]

/-- C12. Output instruction: in a state with the data pointer in range whose next
instruction is `.` and whose writer accepts the byte, one iteration appends exactly one
byte to the output, the low eight bits of the current cell (the cell's value itself when
it is in `0..255`), and changes nothing else but the instruction pointer, which moves to
the next instruction.  Hence, with a writer that accepts every byte, whenever the loop of
`Execute` returns, the output has grown by as many bytes as `.` instructions were
executed. -/
theorem C12_output_instruction (s : Interpreter) :
    (s.instructions[s.instructionPointer]? = some PutChar →
      0 ≤ s.dataPointer ∧ s.dataPointer < tapeLen →
      s.output.results s.output.calls = { accepted := true, err := none } →
      iteration s = Step.next
        { s with output :=
                   { s.output with
                     calls := s.output.calls + 1
                     written := s.output.written ++
                       [Fin.ofNat (s.tape s.dataPointer.toNat % 256).toNat] },
                 instructionPointer := s.instructionPointer + 1 } ∧
      (0 ≤ s.tape s.dataPointer.toNat → s.tape s.dataPointer.toNat ≤ 255 →
        (((Fin.ofNat (s.tape s.dataPointer.toNat % 256).toNat : Byte)).val : Int) =
          s.tape s.dataPointer.toNat)) ∧
    ((∀ k, s.output.results k = { accepted := true, err := none }) →
      ∀ fuel err s1, executeLoop fuel s = Outcome.returned err s1 →
        s1.output.written.length = s.output.written.length + putCharsExecuted fuel s) := by
  constructor
  · intro hins hdp hacc
    refine ⟨?_, byte_of_cell _⟩
    exact iteration_next s _ PutChar hins
      (by rw [dispatch_PutChar]; exact putChar_accepted s hdp hacc)
  · intro hacc fuel err s1 h
    exact executeLoop_written fuel s err s1 hacc h

theorem C12_output_instruction_witness :
    (iteration writeState = Step.next
        { writeState with
          output := { writeState.output with calls := 0 + 1, written := [] ++ [72] },
          instructionPointer := 0 + 1 }) ∧
    ((stateAfter 4 (loaded (goString "+.+.") (stringsReader []) bytesBuffer)).output.written.length
      = 0 + putCharsExecuted 5 (loaded (goString "+.+.") (stringsReader []) bytesBuffer)) :=
  ⟨((C12_output_instruction writeState).1 (by decide) (by decide) (by decide)).1,
   (C12_output_instruction (loaded (goString "+.+.") (stringsReader []) bytesBuffer)).2
     (fun _ => rfl) 5 none _ rfl⟩

/-! ## Programs without loops and I/O -/

theorem count_drop_cons (p : List Byte) (n : Nat) (c a : Byte) (h : p[n]? = some c) :
    ((p.drop n).count a : Int) = (if c = a then 1 else 0) + ((p.drop (n + 1)).count a : Int) := by
  have hlt : n < p.length := (List.getElem?_eq_some_iff.mp h).1
  have hget : p[n] = c := (List.getElem?_eq_some_iff.mp h).2
  rw [List.drop_eq_getElem_cons hlt, hget, List.count_cons]
  by_cases hca : c = a
  · subst hca; simp; ring
  · have : ¬ (c == a) = true := by simpa using hca
    simp [hca]

theorem executeLoop_plusminus (p : List Byte) (h1 : plainProgram p) (h2 : noMove p) :
    ∀ (m : Nat) (s : Interpreter) (fuel : Nat), s.instructions = p →
      s.instructionPointer + m = p.length → s.dataPointer = 0 →
      0 ≤ s.tape 0 → s.tape 0 ≤ 255 → m ≤ fuel →
      ∃ s1, executeLoop fuel s = Outcome.returned none s1 ∧
        s1.tape 0 = (s.tape 0 + ((p.drop s.instructionPointer).count Plus : Int)
          - ((p.drop s.instructionPointer).count Minus : Int)) % 256 ∧
        ∀ k, k ≠ 0 → s1.tape k = s.tape k := by
  intro m
  induction m with
  | zero =>
    intro s fuel hins hm _ h0 h255 _
    refine ⟨s, executeLoop_done fuel s (by rw [hins]; omega), ?_, fun _ _ => rfl⟩
    have : p.drop s.instructionPointer = [] := List.drop_eq_nil_of_le (by omega)
    rw [this]
    simp only [List.count_nil, Nat.cast_zero, add_zero, sub_zero]
    omega
  | succ m ih =>
    intro s fuel hins hm hdp h0 h255 hfuel
    obtain ⟨fuel, rfl⟩ : ∃ f1, fuel = f1 + 1 := ⟨fuel - 1, by omega⟩
    have hlt : s.instructionPointer < s.instructions.length := by rw [hins]; omega
    obtain ⟨c, hc⟩ := exists_get_some p s.instructionPointer (by omega)
    have hsc : s.instructions[s.instructionPointer]? = some c := by rw [hins]; exact hc
    have hmem : c ∈ p := List.mem_iff_getElem?.mpr ⟨_, hc⟩
    obtain ⟨n7, n8, n6, n5⟩ := h1 c hmem
    obtain ⟨n3, n4⟩ := h2 c hmem
    have hcp := count_drop_cons p s.instructionPointer c Plus hc
    have hcm := count_drop_cons p s.instructionPointer c Minus hc
    have hpm : ¬ (Plus = Minus) := by decide
    have hmp : ¬ (Minus = Plus) := by decide
    by_cases hplus : c = Plus
    · subst hplus
      have hit := iteration_Plus_zero s hsc hdp
      rw [executeLoop_step fuel s _ hlt hit]
      obtain ⟨s1, e1, e2, e3⟩ := ih ((s.setCell (if s.tape 0 + 1 = 256 then 0
          else s.tape 0 + 1)).advance) fuel hins
        (by show s.instructionPointer + 1 + m = p.length; omega) hdp
        (by simp only [Interpreter.advance, Interpreter.setCell, hdp]
            simp only [Int.toNat_zero, if_true]; split_ifs <;> omega)
        (by simp only [Interpreter.advance, Interpreter.setCell, hdp]
            simp only [Int.toNat_zero, if_true]; split_ifs <;> omega)
        (by omega)
      refine ⟨s1, e1, ?_, ?_⟩
      · rw [e2, hcp, hcm]
        simp only [Interpreter.advance, Interpreter.setCell, hdp, Int.toNat_zero, if_true, hpm,
          if_false]
        split_ifs <;> omega
      · intro k hk
        rw [e3 k hk]
        simp [Interpreter.advance, Interpreter.setCell, hdp, hk]
    · by_cases hminus : c = Minus
      · subst hminus
        have hit := iteration_Minus_zero s hsc hdp
        rw [executeLoop_step fuel s _ hlt hit]
        obtain ⟨s1, e1, e2, e3⟩ := ih ((s.setCell (if s.tape 0 - 1 = -1 then 255
            else s.tape 0 - 1)).advance) fuel hins
          (by show s.instructionPointer + 1 + m = p.length; omega) hdp
          (by simp only [Interpreter.advance, Interpreter.setCell, hdp]
              simp only [Int.toNat_zero, if_true]; split_ifs <;> omega)
          (by simp only [Interpreter.advance, Interpreter.setCell, hdp]
              simp only [Int.toNat_zero, if_true]; split_ifs <;> omega)
          (by omega)
        refine ⟨s1, e1, ?_, ?_⟩
        · rw [e2, hcp, hcm]
          simp only [Interpreter.advance, Interpreter.setCell, hdp, Int.toNat_zero, if_true,
            hmp, if_false]
          split_ifs <;> omega
        · intro k hk
          rw [e3 k hk]
          simp [Interpreter.advance, Interpreter.setCell, hdp, hk]
      · have hit := iteration_next s s c hsc
          (dispatch_other s c hplus hminus n3 n4 n5 n6 n7 n8)
        rw [executeLoop_step fuel s _ hlt hit]
        obtain ⟨s1, e1, e2, e3⟩ := ih s.advance fuel hins
          (by show s.instructionPointer + 1 + m = p.length; omega) hdp h0 h255 (by omega)
        refine ⟨s1, e1, ?_, e3⟩
        rw [e2, hcp, hcm]
        simp only [hplus, hminus, if_false, zero_add]
        rfl

/-- C13 fails: the programs `-` and `+>+` hold no brackets and no I/O instructions; after
`-` cell 0 holds 255 although the program has no `+`, and after `+>+` cell 0 holds 1 and
cell 1 holds 1 although the program has two `+`. -/
theorem C13_counterexample :
    (plainProgram (goString "-") ∧
      Execute 2 (NewInterpreter (stringsReader (goString "-")) (stringsReader []) bytesBuffer)
        = Outcome.returned none
            (stateAfter 1 (loaded (goString "-") (stringsReader []) bytesBuffer)) ∧
      (stateAfter 1 (loaded (goString "-") (stringsReader []) bytesBuffer)).tape 0 = 255 ∧
      (goString "-").count Plus = 0) ∧
    (plainProgram (goString "+>+") ∧
      Execute 4 (NewInterpreter (stringsReader (goString "+>+")) (stringsReader []) bytesBuffer)
        = Outcome.returned none
            (stateAfter 3 (loaded (goString "+>+") (stringsReader []) bytesBuffer)) ∧
      (stateAfter 3 (loaded (goString "+>+") (stringsReader []) bytesBuffer)).tape 0 = 1 ∧
      (stateAfter 3 (loaded (goString "+>+") (stringsReader []) bytesBuffer)).tape 1 = 1 ∧
      (goString "+>+").count Plus = 2) := by
  refine ⟨⟨by decide!, rfl, by decide, by decide⟩, ⟨by decide!, rfl, by decide, by decide, by decide⟩⟩

/-- C13, as the code has it: for every program that holds no brackets, no I/O
instructions and no `>` or `<`, `Execute` on a fresh interpreter returns no error and
leaves cell 0 equal to the number of `+` minus the number of `-`, modulo 256, and every
other cell equal to 0. -/
theorem C13_straight_line (p : List Byte) (input : Reader) (out : Writer) (extra : Nat)
    (h1 : plainProgram p) (h2 : noMove p) :
    ∃ s1, Execute (p.length + 1 + extra) (NewInterpreter (stringsReader p) input out)
        = Outcome.returned none s1 ∧
      s1.tape 0 = ((p.count Plus : Int) - (p.count Minus : Int)) % 256 ∧
      ∀ k, k ≠ 0 → s1.tape k = 0 := by
  rw [Execute_new p input out _ (by omega)]
  obtain ⟨s1, e1, e2, e3⟩ := executeLoop_plusminus p h1 h2 p.length (loaded p input out)
    (p.length + 1 + extra) rfl (by show 0 + p.length = p.length; omega) rfl
    (by show (0 : Int) ≤ 0; decide) (by show (0 : Int) ≤ 255; decide) (by omega)
  refine ⟨s1, e1, ?_, fun k hk => by rw [e3 k hk]; rfl⟩
  rw [e2]
  show ((0 : Int) + ((List.drop 0 p).count Plus : Int) - ((List.drop 0 p).count Minus : Int)) % 256
    = _
  rw [List.drop_zero, zero_add]

theorem C13_straight_line_witness :
    ∃ s1, Execute (5 + 1 + 0)
          (NewInterpreter (stringsReader (goString "+-a++")) (stringsReader []) bytesBuffer)
        = Outcome.returned none s1 ∧
      s1.tape 0 = (((goString "+-a++").count Plus : Int)
        - ((goString "+-a++").count Minus : Int)) % 256 ∧
      ∀ k, k ≠ 0 → s1.tape k = 0 :=
  C13_straight_line (goString "+-a++") (stringsReader []) bytesBuffer 0 (by decide!) (by decide!)

/-- C14. For every balanced program (no initial part holds more closing than opening
brackets, and the totals are equal), whatever other bytes it holds, `IsValid` returns no
error. -/
theorem C14_isValid_accepts_balanced (p : List Byte) (input : Reader) (out : Writer)
    (extra : Nat)
    (hpre : ∀ n, ¬ (p.take n).count JumpIfZero < (p.take n).count JumpIfNotZero)
    (_htot : p.count JumpIfZero = p.count JumpIfNotZero) :
    (IsValid (p.length + 1 + extra) (NewInterpreter (stringsReader p) input out)).map Prod.fst
      = some none := by
  rw [IsValid_new_fst p input out _ (by omega)]
  have : validate p = none := (validate_spec p).2.mpr (fun n => by
    have := hpre n
    rw [← net_neg_iff] at this
    omega)
  rw [this]

theorem C14_isValid_accepts_balanced_witness :
    (IsValid (32 + 1 + 0) (NewInterpreter
      (stringsReader (goString "+[----->+++<]>+.---.[--->+<]>++.")) (stringsReader [])
      bytesBuffer)).map Prod.fst = some none :=
  C14_isValid_accepts_balanced (goString "+[----->+++<]>+.---.[--->+<]>++.")
    (stringsReader []) bytesBuffer 0
    (by
      intro n
      by_cases hn : n < 33
      · interval_cases n <;> decide
      · rw [List.take_of_length_le (by
          have : (goString "+[----->+++<]>+.---.[--->+<]>++.").length = 32 := by decide
          omega)]
        decide)
    (by decide)

/-! ## Validation before execution, and loading twice -/

theorem readLoop_last (code : Reader) :
    ∀ (fuel : Nat) (calls : Nat) (acc ins : List Byte) (code1 : Reader),
      readLoop fuel { code with calls := calls } acc = some (ins, code1) →
      ∃ k, code1 = { code with calls := k + 1 } ∧ (code.results k).err = some Error.EOF := by
  intro fuel
  induction fuel with
  | zero => intro calls acc ins code1 h; simp [readLoop] at h
  | succ fuel ih =>
    intro calls acc ins code1 h
    simp only [readLoop, Reader.Read] at h
    by_cases he : (code.results calls).err = some Error.EOF
    · simp only [he, if_true, Option.some.injEq, Prod.mk.injEq] at h
      exact ⟨calls, h.2.symm, he⟩
    · simp only [he, if_false] at h
      cases hd : (code.results calls).data with
      | none => rw [hd] at h; exact ih _ _ _ _ h
      | some b => rw [hd] at h; exact ih _ _ _ _ h

theorem readLoop_at_eof (code : Reader) (fuel : Nat) (acc : List Byte)
    (h : (code.results code.calls).err = some Error.EOF) :
    readLoop (fuel + 1) code acc = some (acc, { code with calls := code.calls + 1 }) := by
  simp only [readLoop, Reader.Read, h, if_true]

theorem readAllInstructions_frame (fuel : Nat) (i i1 : Interpreter)
    (h : readAllInstructions fuel i = some i1) :
    i1.tape = i.tape ∧ i1.dataPointer = i.dataPointer ∧
      i1.instructionPointer = i.instructionPointer ∧ i1.output = i.output ∧
      i1.input = i.input := by
  unfold readAllInstructions at h
  split_ifs at h
  · cases h; exact ⟨rfl, rfl, rfl, rfl, rfl⟩
  · split at h
    · cases h
    · cases h; exact ⟨rfl, rfl, rfl, rfl, rfl⟩

theorem readAllInstructions_loaded (fuel : Nat) (i : Interpreter) (h : i.instructions ≠ []) :
    readAllInstructions fuel i = some i := by
  simp only [readAllInstructions, h, ne_eq, not_false_eq_true, if_true]

theorem IsValid_eq_some (fuel : Nat) (i i1 : Interpreter) (e : Option Error)
    (h : IsValid fuel i = some (e, i1)) : readAllInstructions fuel i = some i1 := by
  unfold IsValid at h
  split at h
  · cases h
  · rename_i i2 h2
    simp only [Option.some.injEq, Prod.mk.injEq] at h
    rw [h2, h.2]

theorem stringsReader_sticky (p : List Byte) (k : Nat) :
    stickyEOF { stringsReader p with calls := k } := by
  intro n h
  simp only [stringsReader] at h ⊢
  cases hn : p[n]? with
  | some b => rw [hn] at h; simp at h
  | none =>
    have h1 : p.length ≤ n := by
      by_contra hcon
      rw [List.getElem?_eq_getElem (by omega)] at hn
      cases hn
    have h2 : p[n + 1]? = none := List.getElem?_eq_none (by omega)
    rw [h2]

/-- Execute after a load that has already been done: the same outcome as without it. -/
theorem Execute_after_load (fuel : Nat) (i i1 : Interpreter)
    (hs : i1.instructions ≠ [] ∨ stickyEOF i.code)
    (h : readAllInstructions fuel i = some i1) :
    (Execute fuel i1).same (Execute fuel i) := by
  have hrefl : ∀ o : Outcome, o.same o := by
    intro o
    cases o with
    | returned e s => exact Outcome.same.returned e s s ⟨rfl, rfl, rfl, rfl⟩
    | panicked => exact Outcome.same.panicked
    | timeout => exact Outcome.same.timeout
  have hE : Execute fuel i = executeLoop fuel i1 := by simp only [Execute, h]
  by_cases h1 : i1.instructions ≠ []
  · have : Execute fuel i1 = executeLoop fuel i1 := by
      simp only [Execute, readAllInstructions_loaded fuel i1 h1]
    rw [this, hE]
    exact hrefl _
  · have hs : stickyEOF i.code := hs.resolve_left h1
    have h1 : i1.instructions = [] := by simpa using h1
    by_cases h0 : i.instructions ≠ []
    · rw [readAllInstructions_loaded fuel i h0] at h
      cases h
      exact hrefl _
    · have h0 : i.instructions = [] := by simpa using h0
      simp only [readAllInstructions, h0, ne_eq, not_true_eq_false, if_false] at h
      cases hr : readLoop fuel i.code [] with
      | none => rw [hr] at h; cases h
      | some r =>
        obtain ⟨ins, code1⟩ := r
        rw [hr] at h
        simp only [Option.some.injEq] at h
        obtain ⟨k, hk1, hk2⟩ := readLoop_last i.code fuel i.code.calls [] ins code1 hr
        obtain ⟨f1, rfl⟩ : ∃ f1, fuel = f1 + 1 := by
          cases fuel with
          | zero => simp [readLoop] at hr
          | succ f1 => exact ⟨f1, rfl⟩
        have hcode : i1.code = code1 := by rw [← h]
        have hnext : (i1.code.results i1.code.calls).err = some Error.EOF := by
          rw [hcode, hk1]
          exact hs k hk2
        have hload : readAllInstructions (f1 + 1) i1 =
            some { i1 with code := { i1.code with calls := i1.code.calls + 1 },
                           instructions := [] } := by
          simp only [readAllInstructions, h1, ne_eq, not_true_eq_false, if_false,
            readLoop_at_eof i1.code f1 [] hnext]
        have hd1 : ¬ i1.instructionPointer < i1.instructions.length := by
          rw [h1]; simp
        rw [hE, executeLoop_done _ i1 hd1]
        simp only [Execute, hload]
        rw [executeLoop_done _ _ (by simp)]
        exact Outcome.same.returned none _ _ ⟨rfl, rfl, rfl, rfl⟩

/-- C15. Validation does not mutate engine state: for every interpreter state,
whenever `IsValid` returns, with or without an error, the tape, the data pointer, the
instruction pointer, the output and the input are what they were before the call; and
for every program text `p`, when the state's program reader is a `strings.Reader` over
`p` (at any position), a following `Execute` has the same outcome as an `Execute`
without the `IsValid` call. -/
theorem C15_isValid_frame (p : List Byte) (k : Nat) (i i1 : Interpreter) (fuel : Nat)
    (e : Option Error) (h : IsValid fuel i = some (e, i1)) :
    (i1.tape = i.tape ∧ i1.dataPointer = i.dataPointer ∧
      i1.instructionPointer = i.instructionPointer ∧ i1.output = i.output ∧
      i1.input = i.input) ∧
    (i.code = { stringsReader p with calls := k } →
      (Execute fuel i1).same (Execute fuel i)) :=
  ⟨readAllInstructions_frame fuel i i1 (IsValid_eq_some fuel i i1 e h),
   fun hcode =>
     Execute_after_load fuel i i1 (Or.inr (by rw [hcode]; exact stringsReader_sticky p k))
       (IsValid_eq_some fuel i i1 e h)⟩

theorem C15_isValid_frame_witness :
    ((retarget (loaded (goString "+.") (stringsReader [1]) bytesBuffer) midState).tape
        = midState.tape ∧
      (retarget (loaded (goString "+.") (stringsReader [1]) bytesBuffer) midState).output
        = midState.output) ∧
    (Execute 5 (retarget (loaded (goString "+.") (stringsReader [1]) bytesBuffer) midState)).same
      (Execute 5 midState) :=
  ⟨⟨(C15_isValid_frame (goString "+.") 0 midState
      (retarget (loaded (goString "+.") (stringsReader [1]) bytesBuffer) midState) 5 none
      rfl).1.1,
    (C15_isValid_frame (goString "+.") 0 midState
      (retarget (loaded (goString "+.") (stringsReader [1]) bytesBuffer) midState) 5 none
      rfl).1.2.2.2.1⟩,
   (C15_isValid_frame (goString "+.") 0 midState
      (retarget (loaded (goString "+.") (stringsReader [1]) bytesBuffer) midState) 5 none
      rfl).2 rfl⟩

/-- C16. Loading is idempotent: for every source byte string, the first call of
`readAllInstructions` on an interpreter made from it loads exactly the source content,
and a second call leaves the instruction sequence equal to that; this holds for the
empty source as well. -/
theorem C16_loading_idempotent (src : List Byte) (input : Reader) (out : Writer)
    (extra1 extra2 : Nat) :
    ∃ i1 i2,
      readAllInstructions (src.length + 1 + extra1)
        (NewInterpreter (stringsReader src) input out) = some i1 ∧
      i1.instructions = src ∧
      readAllInstructions (extra2 + 1) i1 = some i2 ∧
      i2.instructions = i1.instructions := by
  refine ⟨loaded src input out, ?_⟩
  have h1 := readAllInstructions_new src input out (src.length + 1 + extra1) (by omega)
  by_cases hs : src = []
  · subst hs
    have hnext : (((loaded [] input out).code).results ((loaded [] input out).code).calls).err
        = some Error.EOF := by
      simp [loaded, stringsReader]
    refine ⟨{ loaded [] input out with
              code := { (loaded [] input out).code with
                        calls := (loaded [] input out).code.calls + 1 },
              instructions := [] }, h1, rfl, ?_, rfl⟩
    have hempty : (loaded [] input out).instructions = [] := rfl
    simp only [readAllInstructions, hempty, ne_eq, not_true_eq_false, if_false,
      readLoop_at_eof _ extra2 [] hnext]
  · exact ⟨loaded src input out, h1, rfl,
      readAllInstructions_loaded _ _ (by simpa [loaded] using hs), rfl⟩

/-! ## The clear loop -/

theorem iteration_Plus_inRange (s : Interpreter)
    (h : s.instructions[s.instructionPointer]? = some Plus)
    (hdp : 0 ≤ s.dataPointer ∧ s.dataPointer < tapeLen) :
    iteration s = Step.next (s.setCell
      (if s.tape s.dataPointer.toNat + 1 = 256 then 0
        else s.tape s.dataPointer.toNat + 1)).advance :=
  iteration_next s _ Plus h (dispatch_Plus s _ (cell_of_inRange s hdp))

theorem iteration_Minus_inRange (s : Interpreter)
    (h : s.instructions[s.instructionPointer]? = some Minus)
    (hdp : 0 ≤ s.dataPointer ∧ s.dataPointer < tapeLen) :
    iteration s = Step.next (s.setCell
      (if s.tape s.dataPointer.toNat - 1 = -1 then 255
        else s.tape s.dataPointer.toNat - 1)).advance :=
  iteration_next s _ Minus h (dispatch_Minus s _ (cell_of_inRange s hdp))

/-- The loop `[c]`, entered with a non-zero cell: `c` maps the cell by `f`, which
reaches 0 from `v` in `mu v` steps. -/
theorem executeLoop_loop_body (c : Byte) (f : Int → Int) (mu : Int → Nat)
    (hc7 : c ≠ JumpIfZero) (hc8 : c ≠ JumpIfNotZero)
    (hstep : ∀ s : Interpreter, s.instructions[s.instructionPointer]? = some c →
      0 ≤ s.dataPointer ∧ s.dataPointer < tapeLen →
      iteration s = Step.next (s.setCell (f (s.tape s.dataPointer.toNat))).advance)
    (hf : ∀ v : Int, 1 ≤ v → v ≤ 255 →
      0 ≤ f v ∧ f v ≤ 255 ∧ 1 ≤ mu v ∧ (f v ≠ 0 → mu (f v) + 1 = mu v)) :
    ∀ (n : Nat) (s : Interpreter) (fuel : Nat),
      s.instructions = [JumpIfZero, c, JumpIfNotZero] → s.instructionPointer = 1 →
      0 ≤ s.dataPointer ∧ s.dataPointer < tapeLen →
      1 ≤ s.tape s.dataPointer.toNat → s.tape s.dataPointer.toNat ≤ 255 →
      mu (s.tape s.dataPointer.toNat) ≤ n → 2 * n ≤ fuel →
      ∃ s1, executeLoop fuel s = Outcome.returned none s1 ∧
        s1.tape s.dataPointer.toNat = 0 ∧
        (∀ k, k ≠ s.dataPointer.toNat → s1.tape k = s.tape k) ∧
        s1.dataPointer = s.dataPointer ∧ s1.output = s.output ∧ s1.input = s.input := by
  intro n
  induction n with
  | zero =>
    intro s fuel _ _ _ h1 h255 hmu _
    have := (hf _ h1 h255).2.2.1
    omega
  | succ n ih =>
    intro s fuel hins hip hdp h1 h255 hmu hfuel
    obtain ⟨fuel, rfl⟩ : ∃ f1, fuel = f1 + 1 + 1 := ⟨fuel - 2, by omega⟩
    obtain ⟨hf0, hf255, _, hfmu⟩ := hf _ h1 h255
    -- the body instruction
    have hlt : s.instructionPointer < s.instructions.length := by rw [hins, hip]; simp
    have hget : s.instructions[s.instructionPointer]? = some c := by rw [hins, hip]; rfl
    have hit := hstep s hget hdp
    rw [executeLoop_step (fuel + 1) s _ hlt hit]
    generalize hs2 : (s.setCell (f (s.tape s.dataPointer.toNat))).advance = s2
    have e_ins : s2.instructions = [JumpIfZero, c, JumpIfNotZero] := by rw [← hs2]; exact hins
    have e_ip : s2.instructionPointer = 2 := by
      rw [← hs2]; show s.instructionPointer + 1 = 2; rw [hip]
    have e_dp : s2.dataPointer = s.dataPointer := by rw [← hs2]; rfl
    have e_out : s2.output = s.output := by rw [← hs2]; rfl
    have e_in : s2.input = s.input := by rw [← hs2]; rfl
    have e_cell : s2.tape s.dataPointer.toNat = f (s.tape s.dataPointer.toNat) := by
      rw [← hs2]; simp [Interpreter.advance, Interpreter.setCell]
    have e_other : ∀ k, k ≠ s.dataPointer.toNat → s2.tape k = s.tape k := by
      intro k hk; rw [← hs2]; simp [Interpreter.advance, Interpreter.setCell, hk]
    -- the closing bracket
    have hlt2 : s2.instructionPointer < s2.instructions.length := by rw [e_ins, e_ip]; simp
    have hget2 : s2.instructions[s2.instructionPointer]? = some JumpIfNotZero := by
      rw [e_ins, e_ip]; rfl
    have hdp2 : 0 ≤ s2.dataPointer ∧ s2.dataPointer < tapeLen := by rw [e_dp]; exact hdp
    have hcell2 : s2.cell = some (f (s.tape s.dataPointer.toNat)) := by
      rw [cell_of_inRange s2 hdp2, e_dp, e_cell]
    by_cases hz : f (s.tape s.dataPointer.toNat) = 0
    · rw [hz] at hcell2
      have hit2 := iteration_next s2 _ _ hget2 (dispatch_JumpIfNotZero_skip s2 hcell2)
      rw [executeLoop_step fuel s2 _ hlt2 hit2]
      refine ⟨s2.advance, executeLoop_done _ _ ?_, ?_, e_other, e_dp, e_out, e_in⟩
      · show ¬ s2.instructionPointer + 1 < s2.instructions.length
        rw [e_ins, e_ip]; simp
      · show s2.tape s.dataPointer.toNat = 0
        rw [e_cell, hz]
    · have hscan : scanBackward s2.instructions s2.instructionPointer 1 = some 0 := by
        rw [e_ins, e_ip]
        have hno : ¬ (JumpIfZero = JumpIfNotZero) := by decide
        simp [scanBackward, hc7, hc8, hno]
      have hit2 := iteration_next s2 _ _ hget2
        (dispatch_JumpIfNotZero_jump s2 _ 0 hcell2 hz hscan)
      rw [executeLoop_step fuel s2 _ hlt2 hit2]
      obtain ⟨s1, r1, r2, r3, r4, r5, r6⟩ :=
        ih ({ s2 with instructionPointer := 0 } : Interpreter).advance fuel e_ins
          (by rfl) hdp2
          (by show 1 ≤ s2.tape s2.dataPointer.toNat; rw [e_dp, e_cell]; omega)
          (by show s2.tape s2.dataPointer.toNat ≤ 255; rw [e_dp, e_cell]; exact hf255)
          (by show mu (s2.tape s2.dataPointer.toNat) ≤ n
              rw [e_dp, e_cell]; have := hfmu hz; omega)
          (by omega)
      refine ⟨s1, r1, ?_, ?_, ?_, ?_, ?_⟩
      · have : s1.tape s2.dataPointer.toNat = 0 := r2
        rw [e_dp] at this; exact this
      · intro k hk
        have : s1.tape k = s2.tape k := r3 k (by rw [e_dp]; exact hk)
        rw [this, e_other k hk]
      · exact r4.trans e_dp
      · exact r5.trans e_out
      · exact r6.trans e_in

theorem executeLoop_clear (c : Byte) (f : Int → Int) (mu : Int → Nat)
    (hc7 : c ≠ JumpIfZero) (hc8 : c ≠ JumpIfNotZero)
    (hstep : ∀ s : Interpreter, s.instructions[s.instructionPointer]? = some c →
      0 ≤ s.dataPointer ∧ s.dataPointer < tapeLen →
      iteration s = Step.next (s.setCell (f (s.tape s.dataPointer.toNat))).advance)
    (hf : ∀ v : Int, 1 ≤ v → v ≤ 255 →
      0 ≤ f v ∧ f v ≤ 255 ∧ 1 ≤ mu v ∧ (f v ≠ 0 → mu (f v) + 1 = mu v))
    (n : Nat) (hmu : ∀ v : Int, 1 ≤ v → v ≤ 255 → mu v ≤ n)
    (s : Interpreter) (fuel : Nat)
    (hins : s.instructions = [JumpIfZero, c, JumpIfNotZero]) (hip : s.instructionPointer = 0)
    (hdp : 0 ≤ s.dataPointer ∧ s.dataPointer < tapeLen)
    (h0 : 0 ≤ s.tape s.dataPointer.toNat) (h255 : s.tape s.dataPointer.toNat ≤ 255)
    (hfuel : 2 * n + 1 ≤ fuel) :
    ∃ s1, Execute fuel s = Outcome.returned none s1 ∧
      s1.tape s.dataPointer.toNat = 0 ∧
      (∀ k, k ≠ s.dataPointer.toNat → s1.tape k = s.tape k) ∧
      s1.dataPointer = s.dataPointer ∧ s1.output = s.output ∧ s1.input = s.input := by
  have hE : Execute fuel s = executeLoop fuel s := by
    simp only [Execute, readAllInstructions_loaded fuel s (by rw [hins]; simp)]
  rw [hE]
  obtain ⟨fuel, rfl⟩ : ∃ f1, fuel = f1 + 1 := ⟨fuel - 1, by omega⟩
  have hlt : s.instructionPointer < s.instructions.length := by rw [hins, hip]; simp
  have hget : s.instructions[s.instructionPointer]? = some JumpIfZero := by
    rw [hins, hip]; rfl
  have hcell := cell_of_inRange s hdp
  by_cases hz : s.tape s.dataPointer.toNat = 0
  · rw [hz] at hcell
    have hscan : scanForward s.instructions (s.instructions.length - s.instructionPointer)
        s.instructionPointer 1 = some 2 := by
      rw [hins, hip]
      have hno : ¬ (JumpIfNotZero = JumpIfZero) := by decide
      simp [scanForward, hc7, hc8, hno]
    have hit := iteration_next s _ _ hget (dispatch_JumpIfZero_jump s 2 hcell hscan)
    rw [executeLoop_step fuel s _ hlt hit]
    refine ⟨_, executeLoop_done _ _ ?_, hz, fun _ _ => rfl, rfl, rfl, rfl⟩
    show ¬ 2 + 1 < s.instructions.length
    rw [hins]; simp
  · have hit := iteration_next s _ _ hget (dispatch_JumpIfZero_skip s _ hcell hz)
    rw [executeLoop_step fuel s _ hlt hit]
    have h1 : 1 ≤ s.tape s.dataPointer.toNat := by omega
    exact executeLoop_loop_body c f mu hc7 hc8 hstep hf n s.advance fuel hins
      (by show s.instructionPointer + 1 = 1; rw [hip]) hdp h1 h255 (hmu _ h1 h255) (by omega)

/-- C19. Clear loop: from every state with the data pointer in range and a value in
`0..255` in the current cell, executing the program `[-]` (and likewise `[+]`, which
reaches 0 by wrapping upwards) terminates without error, with the current cell equal
to 0 and every other cell, the data pointer, the output and the input unchanged. -/
theorem C19_clear_loop (s : Interpreter) (extra : Nat) (hip : s.instructionPointer = 0)
    (hdp : 0 ≤ s.dataPointer ∧ s.dataPointer < tapeLen)
    (h0 : 0 ≤ s.tape s.dataPointer.toNat) (h255 : s.tape s.dataPointer.toNat ≤ 255) :
    (s.instructions = goString "[-]" →
      ∃ s1, Execute (511 + extra) s = Outcome.returned none s1 ∧
        s1.tape s.dataPointer.toNat = 0 ∧
        (∀ k, k ≠ s.dataPointer.toNat → s1.tape k = s.tape k) ∧
        s1.dataPointer = s.dataPointer ∧ s1.output = s.output ∧ s1.input = s.input) ∧
    (s.instructions = goString "[+]" →
      ∃ s1, Execute (511 + extra) s = Outcome.returned none s1 ∧
        s1.tape s.dataPointer.toNat = 0 ∧
        (∀ k, k ≠ s.dataPointer.toNat → s1.tape k = s.tape k) ∧
        s1.dataPointer = s.dataPointer ∧ s1.output = s.output ∧ s1.input = s.input) := by
  constructor
  · intro hins
    have hprog : goString "[-]" = [JumpIfZero, Minus, JumpIfNotZero] := by decide
    rw [hprog] at hins
    exact executeLoop_clear Minus (fun v => if v - 1 = -1 then 255 else v - 1) Int.toNat
      (by decide) (by decide) iteration_Minus_inRange
      (by intro v h1 h2; dsimp only; split_ifs <;> omega) 255
      (by intro v h1 h2; omega) s (511 + extra) hins hip hdp h0 h255 (by omega)
  · intro hins
    have hprog : goString "[+]" = [JumpIfZero, Plus, JumpIfNotZero] := by decide
    rw [hprog] at hins
    exact executeLoop_clear Plus (fun v => if v + 1 = 256 then 0 else v + 1)
      (fun v => (256 - v).toNat)
      (by decide) (by decide) iteration_Plus_inRange
      (by intro v h1 h2; dsimp only; split_ifs <;> omega) 255
      (by intro v h1 h2; dsimp only; omega) s (511 + extra) hins hip hdp h0 h255 (by omega)

theorem C19_clear_loop_witness :
    ∃ s1, Execute (511 + 0) clearState = Outcome.returned none s1 ∧
      s1.tape clearState.dataPointer.toNat = 0 ∧
      (∀ k, k ≠ clearState.dataPointer.toNat → s1.tape k = clearState.tape k) ∧
      s1.dataPointer = clearState.dataPointer ∧ s1.output = clearState.output ∧
      s1.input = clearState.input :=
  (C19_clear_loop clearState 0 rfl (by decide) (by decide) (by decide)).1 rfl

/-! ## Read failures while loading, and executing validated programs -/

theorem readLoop_brokenReader : ∀ (fuel k : Nat) (acc : List Byte),
    readLoop fuel { brokenReader with calls := k } acc = none := by
  intro fuel
  induction fuel with
  | zero => intro k acc; rfl
  | succ fuel ih =>
    intro k acc
    by_cases hk : k = 0
    · subst hk
      have := ih 1 (acc ++ [Plus])
      simp only [readLoop, Reader.Read, brokenReader] at this ⊢
      simpa using this
    · have := ih (k + 1) acc
      simp only [readLoop, Reader.Read, brokenReader, hk, if_false] at this ⊢
      simpa using this

/-- C17. A read failure other than `io.EOF` does not end the loading: with a reader that
delivers `+` and then fails on every `Read`, `readAllInstructions` is still reading
after any number of reads (it never returns); with a reader that delivers `+`, fails
once, then delivers `-` and ends, the loaded sequence is `+-` and not `+`. -/
theorem C17_read_error_not_end_of_stream (input : Reader) (out : Writer) :
    (∀ fuel, readAllInstructions fuel (NewInterpreter brokenReader input out) = none) ∧
    (readAllInstructions 4 (NewInterpreter flakyReader input out)).map
        (fun i => i.instructions) = some [Plus, Minus] ∧
    (readAllInstructions 2 (NewInterpreter (stringsReader [Plus]) input out)).map
        (fun i => i.instructions) = some [Plus] := by
  refine ⟨?_, ?_, ?_⟩
  · intro fuel
    have := readLoop_brokenReader fuel 0 []
    have h0 : ({ brokenReader with calls := 0 } : Reader) = brokenReader := rfl
    rw [h0] at this
    simp only [readAllInstructions, NewInterpreter, this]
    simp
  · rfl
  · rfl

/-- C18. The program `[` passes `IsValid` (no error), yet `Execute` on it panics: the
current cell is 0, so the forward scan looks for the matching closing bracket and reads
past the end of the instructions. -/
theorem C18_valid_program_panics (input : Reader) (out : Writer) :
    (IsValid 2 (NewInterpreter (stringsReader (goString "[")) input out)).map Prod.fst
        = some none ∧
    scanForward (goString "[") 1 0 1 = none ∧
    Execute 2 (NewInterpreter (stringsReader (goString "[")) input out) = Outcome.panicked := by
  refine ⟨?_, by decide, rfl⟩
  rw [IsValid_new_fst _ input out 2 (by decide)]
  decide

end bf
